import Mathlib

set_option maxRecDepth 16000

/-!
# Verification of the NitiCheck risk-analysis core

Shallow embedding of the core risk-pattern detection engine of the NitiCheck
backend (`src/backend/app/utils/text_cleaner.py` and
`src/backend/app/services/risk_analyzer.py`), together with proofs settling
the frozen claims about it.

Modelling conventions:
* Python strings are `List Char`; `len`, slicing `s[a:b]`, `s[:n]` become
  `List.length`, `drop`/`take`.
* Python's `\s`, `\d`, `\w` character classes are modelled over their ASCII
  part (the documents involved are ASCII; `str.lower`/`str.strip` likewise).
* The fixed regular expressions of the source are compiled, one by one, into
  small executable matchers (a token-list matcher for the keyword/negation
  patterns, and dedicated scanners for the two numeric `findall` patterns).
  Each definition notes the regex it embeds and, where the greedy/backtracking
  behaviour of `re` matters, why the executable version agrees with it.
* Python `float` values produced by `float(token)` are modelled exactly by
  `PyNum` (a decimal mantissa with a count of fractional digits); `PyNum.toRat`
  is the rational value. All tokens here are short decimal literals, for which
  the exact-decimal model agrees with IEEE double behaviour on every
  comparison and `repr` used by the code.
* `uuid.uuid4()` is modelled by the index of the clause in the run (an opaque
  fresh identifier); Python's string `hash` used for the dedup set is modelled
  injectively by the hashed string itself.
-/

namespace NitiCheck

/-- ASCII part of Python's `\s` / `str.isspace` class: space, tab, newline,
carriage return, vertical tab, form feed. -/
def isPySpace (c : Char) : Bool :=
  c == ' ' || c == '\t' || c == '\n' || c == '\r' || c == '\x0b' || c == '\x0c'

/-- ASCII part of Python's `\w` class: letters, digits, underscore. -/
def isWordChar (c : Char) : Bool :=
  c.isAlpha || c.isDigit || c == '_'

/-- The sentence-boundary punctuation class `[.!?]` of `split_into_clauses`. -/
def isPunct (c : Char) : Bool :=
  c == '.' || c == '!' || c == '?'

/-- Python `str.lower()` (ASCII part), applied character-wise. -/
def strLower (s : List Char) : List Char :=
  s.map Char.toLower

/-- Python `str.strip()` (ASCII whitespace part). -/
def pyStrip (s : List Char) : List Char :=
  ((s.dropWhile isPySpace).reverse.dropWhile isPySpace).reverse

/-- Does the word `w` occur in `s` starting exactly at index `i`? -/
def isPrefixAt (s : List Char) (i : Nat) (w : List Char) : Bool :=
  decide ((s.drop i).take w.length = w)

/-- Python's `w in s` substring test. -/
def listContains (s w : List Char) : Bool :=
  (List.range (s.length + 1)).any (fun i => isPrefixAt s i w)

/-! ## `clean_text` (text_cleaner.py, lines 8-22)

`re.sub(r'\s+', ' ', text).strip()` collapses every whitespace run into a
single space and strips the ends; equivalently it joins the maximal
non-whitespace runs ("words") of the input with single spaces. -/

/-- Maximal non-whitespace runs of the input, in order (accumulator-passing
so that the recursion is structural). -/
def wordsAux : List Char → List Char → List (List Char)
  | [], acc => if acc = [] then [] else [acc]
  | c :: cs, acc =>
      if isPySpace c then
        if acc = [] then wordsAux cs [] else acc :: wordsAux cs []
      else wordsAux cs (acc ++ [c])

/-- The whitespace-separated words of a string. -/
def pyWords (s : List Char) : List (List Char) :=
  wordsAux s []

/-- Join word lists with single spaces. -/
def joinSp : List (List Char) → List Char
  | [] => []
  | [w] => w
  | w :: ws => w ++ ' ' :: joinSp ws

/-- `clean_text`: collapse whitespace runs to single spaces and strip. -/
def clean_text (s : List Char) : List Char :=
  joinSp (pyWords s)

/-! ## Paragraph splitting (text_cleaner.py, line 45)

`re.split(r'\n\s*\n+', text)`.  A separator match starts at a newline and,
after greedily consuming whitespace with minimal give-back for the final
`\n+`, ends right after the **last** newline of the contiguous whitespace run
that begins at that newline; a match exists iff that run contains at least
two newlines.  The state machine below scans once, buffering each
whitespace run that starts at a newline (`pend`) and resolving it when the
run ends. -/

/-- The part of a buffered whitespace run after its last newline (text that
belongs to the next paragraph). -/
def nlTail (p : List Char) : List Char :=
  (p.reverse.takeWhile (fun c => c ≠ '\n')).reverse

/-- State of the paragraph-splitting scan. -/
structure ParSt where
  done : List (List Char)
  cur : List Char
  pend : List Char
deriving Repr, DecidableEq

/-- One step of the paragraph-splitting scan. -/
def parStep (st : ParSt) (c : Char) : ParSt :=
  if st.pend = [] then
    if c = '\n' then ⟨st.done, st.cur, ['\n']⟩
    else ⟨st.done, st.cur ++ [c], []⟩
  else
    if isPySpace c then ⟨st.done, st.cur, st.pend ++ [c]⟩
    else if 2 ≤ st.pend.count '\n' then
      ⟨st.done ++ [st.cur], nlTail st.pend ++ [c], []⟩
    else ⟨st.done, st.cur ++ st.pend ++ [c], []⟩

/-- Resolve the scan state at end of input. -/
def parFlush (st : ParSt) : List (List Char) :=
  if st.pend = [] then st.done ++ [st.cur]
  else if 2 ≤ st.pend.count '\n' then st.done ++ [st.cur, nlTail st.pend]
  else st.done ++ [st.cur ++ st.pend]

/-- `re.split(r'\n\s*\n+', text)`: the paragraphs of the document. -/
def splitParagraphs (text : List Char) : List (List Char) :=
  parFlush (text.foldl parStep ⟨[], [], []⟩)

/-! ## Sentence splitting (text_cleaner.py, line 53)

`re.split(r'([.!?]+(?:\s+|$))', paragraph)` with the captured separator kept,
followed by the pairing loop `for i in range(0, len(sentences), 2)` which
glues each text piece to the separator that follows it.  The combined effect
is to cut the paragraph into chunks, each extending up to and including a
maximal punctuation run followed by a maximal whitespace run (or the end of
the paragraph); a punctuation run followed by a non-space, non-punctuation
character is ordinary text.  The machine below produces exactly these glued
`text + separator` chunks. -/

/-- Mode of the sentence-chunking scan: reading text, inside a punctuation
run, or inside the whitespace run that closes a separator. -/
inductive ChunkMode | txt | pn | sp
deriving Repr, DecidableEq

/-- State of the sentence-chunking scan. -/
structure ChunkSt where
  out : List (List Char)
  acc : List Char
  pr : List Char
  sr : List Char
  mode : ChunkMode
deriving Repr, DecidableEq

/-- One step of the sentence-chunking scan. -/
def chunkStep (st : ChunkSt) (c : Char) : ChunkSt :=
  match st.mode with
  | .txt =>
      if isPunct c then ⟨st.out, st.acc, [c], [], .pn⟩
      else ⟨st.out, st.acc ++ [c], [], [], .txt⟩
  | .pn =>
      if isPunct c then ⟨st.out, st.acc, st.pr ++ [c], [], .pn⟩
      else if isPySpace c then ⟨st.out, st.acc, st.pr, [c], .sp⟩
      else ⟨st.out, st.acc ++ st.pr ++ [c], [], [], .txt⟩
  | .sp =>
      if isPySpace c then ⟨st.out, st.acc, st.pr, st.sr ++ [c], .sp⟩
      else if isPunct c then ⟨st.out ++ [st.acc ++ st.pr ++ st.sr], [], [c], [], .pn⟩
      else ⟨st.out ++ [st.acc ++ st.pr ++ st.sr], [c], [], [], .txt⟩

/-- Resolve the chunking state at end of paragraph (`$` closes a separator). -/
def chunkFlush (st : ChunkSt) : List (List Char) :=
  match st.mode with
  | .txt => if st.acc = [] then st.out else st.out ++ [st.acc]
  | .pn => st.out ++ [st.acc ++ st.pr]
  | .sp => st.out ++ [st.acc ++ st.pr ++ st.sr]

/-- The `text + separator` sentence chunks of a paragraph, in order. -/
def sentenceChunks (p : List Char) : List (List Char) :=
  chunkFlush (p.foldl chunkStep ⟨[], [], [], [], .txt⟩)

/-! ## `split_into_clauses` (text_cleaner.py, lines 25-88) -/

/-- Accumulation state of the clause-building loop: emitted clauses and the
`current_clause` buffer. -/
structure SegState where
  clauses : List (List Char)
  current : List Char
deriving Repr, DecidableEq

/-- The `current_clause + " " + sentence` accumulation of the sentence
loop (a fresh buffer just becomes the sentence). -/
def segAppend (current s : List Char) : List Char :=
  if current = [] then s else current ++ ' ' :: s

/-- One iteration of the sentence loop of `split_into_clauses`: clean the
chunk, skip it if empty, emit it directly when long enough (flushing the
buffer first), otherwise accumulate it and emit the buffer once it reaches
`min_length`. -/
def stepSentence (min_length : Nat) (st : SegState) (chunk : List Char) : SegState :=
  if clean_text chunk = [] then st
  else if min_length ≤ (clean_text chunk).length then
    ⟨st.clauses ++ (if st.current = [] then [] else [st.current]) ++ [clean_text chunk], []⟩
  else if min_length ≤ (segAppend st.current (clean_text chunk)).length then
    ⟨st.clauses ++ [segAppend st.current (clean_text chunk)], []⟩
  else ⟨st.clauses, segAppend st.current (clean_text chunk)⟩

/-- The final-buffer flush of the sentence loop: keep the pending buffer
only when it is non-empty and meets `min_length`. -/
def segFinal (min_length : Nat) (st : SegState) : List (List Char) :=
  st.clauses ++ (if st.current ≠ [] ∧ min_length ≤ st.current.length then [st.current] else [])

/-- Per-paragraph body of `split_into_clauses`: clean the paragraph, skip it
when shorter than `min_length`, otherwise run the sentence loop and flush a
final buffer only when it meets `min_length`. -/
def processParagraph (min_length : Nat) (paragraph : List Char) : List (List Char) :=
  if (clean_text paragraph).length < min_length then []
  else
    segFinal min_length
      ((sentenceChunks (clean_text paragraph)).foldl (stepSentence min_length) ⟨[], []⟩)

/-- `split_into_clauses(text, min_length)`: paragraphs, then sentences, then
the final `len(c) >= min_length` filter. -/
def split_into_clauses (text : List Char) (min_length : Nat) : List (List Char) :=
  if text = [] then []
  else
    ((splitParagraphs text).foldl (fun acc par => acc ++ processParagraph min_length par) []).filter
      (fun c => min_length ≤ c.length)

/-! ## `extract_numbers` (text_cleaner.py, lines 91-114)

Two `re.findall` passes: percentages `(\d+\.?\d*)\s*%` and bare numbers
`\b(\d+\.?\d*)\b`, concatenated, each token then parsed with `float`. -/

/-- A captured numeric token: a non-empty run of integer digits, an optional
decimal point, and a (possibly empty) run of fractional digits. -/
structure NumTok where
  d1 : List Char
  dot : Bool
  d2 : List Char
deriving Repr, DecidableEq

/-- The token text as captured by the regex group. -/
def NumTok.render (t : NumTok) : List Char :=
  t.d1 ++ (if t.dot then '.' :: t.d2 else [])

/-- Value of a digit run as a natural number (e.g. `['0','0','7'] ↦ 7`). -/
def digitsNat (l : List Char) : Nat :=
  l.foldl (fun a c => a * 10 + (c.toNat - 48)) 0

/-- Exact model of a Python `float` produced by `float(token)` for an
unsigned decimal token: `mant / 10 ^ frac`. -/
structure PyNum where
  mant : Nat
  frac : Nat
deriving Repr, DecidableEq

/-- Rational value of a `PyNum`. -/
def PyNum.toRat (a : PyNum) : ℚ :=
  (a.mant : ℚ) / (10 : ℚ) ^ a.frac

/-- Decidable value comparison `a <= b` (cross multiplication). -/
def PyNum.leB (a b : PyNum) : Bool :=
  decide (a.mant * 10 ^ b.frac ≤ b.mant * 10 ^ a.frac)

/-- Python `float()` on an unsigned decimal token (`digits`, `digits.`,
`digits.digits`, `.digits`); anything else fails.  This is the restriction
of `float` to the token language of the two `findall` patterns. -/
def parseFloat (l : List Char) : Option PyNum :=
  match l.drop (l.takeWhile Char.isDigit).length with
  | [] =>
      if l.takeWhile Char.isDigit = [] then none
      else some ⟨digitsNat (l.takeWhile Char.isDigit), 0⟩
  | '.' :: d2 =>
      if d2.all Char.isDigit ∧ ¬(l.takeWhile Char.isDigit = [] ∧ d2 = []) then
        some ⟨digitsNat (l.takeWhile Char.isDigit ++ d2), d2.length⟩
      else none
  | _ => none

/-- Length of the whitespace run of `s` starting at `i`. -/
def spaceRunLen (s : List Char) (i : Nat) : Nat :=
  ((s.drop i).takeWhile isPySpace).length

/-- The maximal digit run of `s` starting at `i`. -/
def digitRun (s : List Char) (i : Nat) : List Char :=
  (s.drop i).takeWhile Char.isDigit

/-- Close a percentage match: consume `\s*` from `k` and require `%`;
returns the captured token and the end of the full match (past the `%`). -/
def percClose (s : List Char) (t : NumTok) (k : Nat) : Option (NumTok × Nat) :=
  if s[k + spaceRunLen s k]? = some '%' then some (t, k + spaceRunLen s k + 1) else none

/-- Attempt of `(\d+\.?\d*)\s*%` at start position `i`.  For this pattern the
greedy parse is exact: every backtracking alternative exposes a digit or a
dot where `\s*%` must match, so no give-back can ever succeed. -/
def percAt (s : List Char) (i : Nat) : Option (NumTok × Nat) :=
  if digitRun s i = [] then none
  else if s[i + (digitRun s i).length]? = some '.' then
    percClose s ⟨digitRun s i, true, digitRun s (i + (digitRun s i).length + 1)⟩
      (i + (digitRun s i).length + 1 + (digitRun s (i + (digitRun s i).length + 1)).length)
  else
    percClose s ⟨digitRun s i, false, []⟩ (i + (digitRun s i).length)

/-- Is the character at position `i` of `s` a word character (out of range
counts as not)? -/
def charAtWord (s : List Char) (i : Nat) : Bool :=
  (s[i]?.map isWordChar).getD false

/-- Python's `\b` word boundary between positions `i-1` and `i` of `s`. -/
def wordBoundary (s : List Char) (i : Nat) : Bool :=
  match i with
  | 0 => charAtWord s 0
  | j + 1 => charAtWord s j != charAtWord s (j + 1)

/-- The candidate matches of `\b(\d+\.?\d*)\b` at start `i`, in the engine's
backtracking order: with the dot, fractional digits longest first; then
without the dot, integer digits longest first.  `d1` is the full integer run,
`d2` the full fractional run, `a = i + d1.length`. -/
def numCandidates (s : List Char) (i : Nat) (d1 d2 : List Char) (a : Nat) : List (NumTok × Nat) :=
  (if s[a]? = some '.' then
    (List.range (d2.length + 1)).reverse.map (fun k => (⟨d1, true, d2.take k⟩, a + 1 + k))
  else []) ++
  (List.range d1.length).reverse.map (fun k => (⟨d1.take (k + 1), false, []⟩, i + k + 1))

/-- The fractional digit run of a bare-number attempt at `i`: the digits
after the dot that follows the integer run, if that dot is present. -/
def numD2 (s : List Char) (i : Nat) : List Char :=
  if s[i + (digitRun s i).length]? = some '.' then
    digitRun s (i + (digitRun s i).length + 1)
  else []

/-- Attempt of `\b(\d+\.?\d*)\b` at start position `i`: the first candidate
(in backtracking order) whose end position sits on a word boundary. -/
def numAt (s : List Char) (i : Nat) : Option (NumTok × Nat) :=
  if wordBoundary s i then
    if digitRun s i = [] then none
    else
      (numCandidates s i (digitRun s i) (numD2 s i) (i + (digitRun s i).length)).find?
        (fun te => wordBoundary s te.2)
  else none

/-- `re.findall` scan: repeatedly find the leftmost match at or after the
current position and continue just past it.  Every successful attempt ends
strictly past its start, so `s.length + 1` fuel always suffices. -/
def scanTokens (att : List Char → Nat → Option (NumTok × Nat)) (s : List Char) :
    Nat → Nat → List NumTok
  | 0, _ => []
  | fuel + 1, i =>
      if s.length ≤ i then []
      else
        match att s i with
        | some (t, e) => t :: scanTokens att s fuel e
        | none => scanTokens att s fuel (i + 1)

/-- The percentage tokens of `re.findall(r'(\d+\.?\d*)\s*%', text)`. -/
def percMatches (s : List Char) : List NumTok :=
  scanTokens percAt s (s.length + 1) 0

/-- The bare-number tokens of `re.findall(r'\b(\d+\.?\d*)\b', text)`. -/
def bareMatches (s : List Char) : List NumTok :=
  scanTokens numAt s (s.length + 1) 0

/-- `extract_numbers`: both token lists concatenated (percentages first),
each parsed with `float`, unparsable tokens silently dropped. -/
def extract_numbers (s : List Char) : List PyNum :=
  ((percMatches s ++ bareMatches s).map NumTok.render).filterMap parseFloat

/-- The parse loop of `extract_numbers` with the `except ValueError` branch
turned into an error instead of a silent skip. -/
def parseAllE : List (List Char) → Except String (List PyNum)
  | [] => .ok []
  | tk :: rest =>
      match parseFloat tk with
      | some q =>
          match parseAllE rest with
          | .ok qs => .ok (q :: qs)
          | .error e => .error e
      | none => .error "ValueError: could not convert string to float"

/-- Variant of `extract_numbers` in which the `except ValueError` branch is
an error instead of a silent skip: it fails iff some captured token does not
parse as a float. -/
def extract_numbersE (s : List Char) : Except String (List PyNum) :=
  parseAllE ((percMatches s ++ bareMatches s).map NumTok.render)

/-! ## The keyword / negation regular expressions (risk_analyzer.py)

Every keyword and negation pattern of `RiskAnalyzer` is a sequence of the
tokens below.  `_check_pattern` and `_has_negative_context` only use
`re.search` for existence and the start position of the leftmost match, so
the matcher need only decide "does the pattern match starting at `i`".  For
that question the greedy treatment of `\s+`/`\s*` below is exact: in every
pattern of the catalog the token after a whitespace class is a literal word
(or the end of the pattern), which can never consume a whitespace character,
so giving back whitespace can never turn a failure into a success. -/

/-- One token of a compiled keyword/negation regex. -/
inductive Tok
  /-- a literal string -/
  | lit : List Char → Tok
  /-- `\s+` -/
  | ws1 : Tok
  /-- `\s*` -/
  | ws0 : Tok
  /-- `\b` -/
  | wb : Tok
  /-- an optional literal, e.g. the `d?` of `waived?` -/
  | optStr : List Char → Tok
  /-- an optional single character from a class, e.g. `[-\s]?` -/
  | optPred : (Char → Bool) → Tok
  /-- an optional alternation of literals, e.g. `(?:of|is|at)?` -/
  | optAlt : List (List Char) → Tok

/-- Does the token sequence match in `s` starting at position `i` (ending
anywhere)?  Optional tokens try the consuming branch first, like the
backtracking engine; see the section comment for why the whitespace classes
are consumed greedily. -/
def matchToks (s : List Char) : List Tok → Nat → Bool
  | [], _ => true
  | .lit w :: ts, i => isPrefixAt s i w && matchToks s ts (i + w.length)
  | .ws1 :: ts, i =>
      let k := spaceRunLen s i
      decide (0 < k) && matchToks s ts (i + k)
  | .ws0 :: ts, i => matchToks s ts (i + spaceRunLen s i)
  | .wb :: ts, i => wordBoundary s i && matchToks s ts i
  | .optStr w :: ts, i => (isPrefixAt s i w && matchToks s ts (i + w.length)) || matchToks s ts i
  | .optPred p :: ts, i =>
      ((s[i]?.map p).getD false && matchToks s ts (i + 1)) || matchToks s ts i
  | .optAlt ws :: ts, i =>
      ws.any (fun w => isPrefixAt s i w && matchToks s ts (i + w.length)) || matchToks s ts i

/-- `re.search(pattern, s)`: the start position of the leftmost match, if
any.  (No pattern of the catalog can match the empty string, but position
`s.length` is scanned too, as the engine does.) -/
def reSearch (pat : List Tok) (s : List Char) : Option Nat :=
  (List.range (s.length + 1)).find? (fun i => matchToks s pat i)

/-- Build `w₁\s+w₂\s+…\s+wₙ` from the given words. -/
def phrase : List (List Char) → List Tok
  | [] => []
  | [w] => [.lit w]
  | w :: ws => .lit w :: .ws1 :: phrase ws

/-- `\b w₁\s+…\s+wₙ \s+` (negation patterns with a trailing `\s+`). -/
def negT (ws : List (List Char)) : List Tok :=
  .wb :: phrase ws ++ [.ws1]

/-- `\b w₁\s+…\s+wₙ \b` (negation patterns closed by a word boundary). -/
def negB (ws : List (List Char)) : List Tok :=
  .wb :: phrase ws ++ [.wb]

/-- `RiskAnalyzer.NEGATIVE_INDICATORS` (risk_analyzer.py, lines 19-45),
compiled in source order. -/
def NEGATIVE_INDICATORS : List (List Tok) :=
  [ negT ["no".data],                                   -- \bno\s+
    negT ["not".data],                                  -- \bnot\s+
    negT ["without".data],                              -- \bwithout\s+
    [.wb, .lit "waive".data, .optStr ['d'], .wb],       -- \bwaived?\b
    negB ["exempt".data],                               -- \bexempt\b
    negB ["excluded".data],                             -- \bexcluded\b
    negB ["not".data, "applicable".data],               -- \bnot\s+applicable\b
    negT ["does".data, "not".data],                     -- \bdoes\s+not\s+
    negT ["will".data, "not".data],                     -- \bwill\s+not\s+
    negT ["shall".data, "not".data],                    -- \bshall\s+not\s+
    negT ["may".data, "not".data],                      -- \bmay\s+not\s+
    negB ["cannot".data],                               -- \bcannot\b
    negB ["prohibited".data],                           -- \bprohibited\b
    negB ["forbidden".data],                            -- \bforbidden\b
    negB ["unavailable".data],                          -- \bunavailable\b
    negB ["not".data, "subject".data, "to".data],       -- \bnot\s+subject\s+to\b
    negB ["not".data, "liable".data, "for".data],       -- \bnot\s+liable\s+for\b
    negB ["no".data, "charge".data, "for".data],        -- \bno\s+charge\s+for\b
    negB ["no".data, "fee".data, "for".data],           -- \bno\s+fee\s+for\b
    negB ["no".data, "penalty".data],                   -- \bno\s+penalty\b
    negB ["penalty".data, "waived".data],               -- \bpenalty\s+waived\b
    negB ["fee".data, "waived".data],                   -- \bfee\s+waived\b
    negB ["no".data, "interest".data],                  -- \bno\s+interest\b
    negB ["interest".data, "free".data],                -- \binterest\s+free\b
    negB ["zero".data, "interest".data] ]               -- \bzero\s+interest\b

/-- One entry of `RiskAnalyzer.RISK_PATTERNS`: compiled keyword patterns in
source order, the optional numeric threshold, the risk-type label and the
base severity. -/
structure PatternConfig where
  keywords : List (List Tok)
  threshold : Option PyNum
  risk_type : List Char
  base_severity : List Char

/-- `RISK_PATTERNS["high_interest"]` (threshold `18.0`). -/
def highInterestCfg : PatternConfig :=
  { keywords :=
      [ phrase ["interest".data, "rate".data],                        -- interest\s+rate
        [.lit "apr".data, .ws0, .optAlt ["of".data, "is".data, "at".data]],  -- apr\s*(?:of|is|at)?
        phrase ["annual".data, "percentage".data, "rate".data],       -- annual\s+percentage\s+rate
        phrase ["interest".data, "charged".data],                     -- interest\s+charged
        phrase ["rate".data, "of".data, "interest".data] ],           -- rate\s+of\s+interest
    threshold := some ⟨18, 0⟩,
    risk_type := "High Interest Rate".data,
    base_severity := "High".data }

/-- `RISK_PATTERNS["hidden_fees"]`. -/
def hiddenFeesCfg : PatternConfig :=
  { keywords :=
      [ phrase ["hidden".data, "fee".data],
        phrase ["administrative".data, "fee".data],
        phrase ["processing".data, "fee".data],
        phrase ["service".data, "charge".data],
        phrase ["convenience".data, "fee".data],
        phrase ["maintenance".data, "fee".data],
        phrase ["annual".data, "fee".data],
        phrase ["late".data, "fee".data],
        phrase ["overdraft".data, "fee".data],
        phrase ["transaction".data, "fee".data],
        phrase ["application".data, "fee".data],
        phrase ["origination".data, "fee".data] ],
    threshold := none,
    risk_type := "Hidden Fees".data,
    base_severity := "Medium".data }

/-- `RISK_PATTERNS["penalty_clauses"]`. -/
def penaltyClausesCfg : PatternConfig :=
  { keywords :=
      [ [.lit "penalty".data],                                        -- penalty
        phrase ["penal".data, "interest".data],
        phrase ["default".data, "rate".data],
        phrase ["penalty".data, "charge".data],
        phrase ["penalty".data, "fee".data],
        phrase ["breach".data, "penalty".data],
        phrase ["violation".data, "penalty".data] ],
    threshold := none,
    risk_type := "Penalty Clauses".data,
    base_severity := "High".data }

/-- `[-\s]?`: an optional hyphen-or-whitespace character. -/
def dashOrSpace : Char → Bool := fun c => c == '-' || isPySpace c

/-- `RISK_PATTERNS["auto_renewal"]`. -/
def autoRenewalCfg : PatternConfig :=
  { keywords :=
      [ [.lit "auto".data, .optPred dashOrSpace, .lit "renew".data],  -- auto[-\s]?renew
        phrase ["automatic".data, "renewal".data],
        [.lit "auto".data, .optPred dashOrSpace, .lit "extend".data], -- auto[-\s]?extend
        phrase ["automatic".data, "extension".data],
        phrase ["renew".data, "automatically".data],
        phrase ["continuous".data, "renewal".data] ],
    threshold := none,
    risk_type := "Auto-Renewal".data,
    base_severity := "Medium".data }

/-- `RISK_PATTERNS["one_sided_termination"]`. -/
def oneSidedTerminationCfg : PatternConfig :=
  { keywords :=
      [ phrase ["sole".data, "discretion".data],
        phrase ["without".data, "notice".data],
        phrase ["terminate".data, "at".data, "any".data, "time".data],
        phrase ["termination".data, "without".data, "cause".data],
        phrase ["unilateral".data, "termination".data],
        phrase ["terminate".data, "immediately".data],
        phrase ["at".data, "our".data, "discretion".data],
        phrase ["we".data, "may".data, "terminate".data],
        phrase ["reserve".data, "the".data, "right".data, "to".data, "terminate".data] ],
    threshold := none,
    risk_type := "One-Sided Termination".data,
    base_severity := "High".data }

/-- `RISK_PATTERNS["arbitration_clause"]`. -/
def arbitrationClauseCfg : PatternConfig :=
  { keywords :=
      [ phrase ["binding".data, "arbitration".data],
        phrase ["mandatory".data, "arbitration".data],
        phrase ["waive".data, "right".data, "to".data, "sue".data],
        phrase ["class".data, "action".data, "waiver".data],
        phrase ["dispute".data, "resolution".data, "by".data, "arbitration".data] ],
    threshold := none,
    risk_type := "Arbitration Clause".data,
    base_severity := "Low".data }

/-- `RISK_PATTERNS["variable_rate"]`. -/
def variableRateCfg : PatternConfig :=
  { keywords :=
      [ phrase ["variable".data, "rate".data],
        phrase ["adjustable".data, "rate".data],
        phrase ["rate".data, "may".data, "change".data],
        phrase ["rate".data, "subject".data, "to".data, "change".data],
        phrase ["floating".data, "rate".data] ],
    threshold := none,
    risk_type := "Variable Interest Rate".data,
    base_severity := "Medium".data }

/-- `RISK_PATTERNS["prepayment_penalty"]`. -/
def prepaymentPenaltyCfg : PatternConfig :=
  { keywords :=
      [ phrase ["prepayment".data, "penalty".data],
        phrase ["early".data, "payment".data, "penalty".data],
        phrase ["prepayment".data, "charge".data],
        phrase ["early".data, "termination".data, "fee".data] ],
    threshold := none,
    risk_type := "Prepayment Penalty".data,
    base_severity := "Medium".data }

/-- `RiskAnalyzer.RISK_PATTERNS` in insertion (= iteration) order. -/
def RISK_PATTERNS : List PatternConfig :=
  [ highInterestCfg, hiddenFeesCfg, penaltyClausesCfg, autoRenewalCfg,
    oneSidedTerminationCfg, arbitrationClauseCfg, variableRateCfg,
    prepaymentPenaltyCfg ]

/-! ## `RiskAnalyzer` methods -/

/-- The window `clause_lower[max(0, pos - 50):pos]` examined by
`_has_negative_context` (natural-number subtraction clamps at 0). -/
def negWindow (clause_lower : List Char) (pos : Nat) : List Char :=
  ((clause_lower.drop (pos - 50)).take (pos - (pos - 50)))

/-- `RiskAnalyzer._has_negative_context` (lines 210-231): some negation
pattern matches in the 50 characters before the keyword match. -/
def _has_negative_context (clause_lower : List Char) (keyword_match_pos : Nat) : Bool :=
  NEGATIVE_INDICATORS.any (fun pat => (reSearch pat (negWindow clause_lower keyword_match_pos)).isSome)

/-- The keyword scan of `_check_pattern` (lines 250-257): the first keyword
pattern, in definition order, with a match anywhere in the clause; returns
the start position of that pattern's leftmost match. -/
def findKeyword (keywords : List (List Tok)) (clause_lower : List Char) : Option Nat :=
  match keywords with
  | [] => none
  | k :: ks =>
      match reSearch k clause_lower with
      | some p => some p
      | none => findKeyword ks clause_lower

/-- Python's `repr` of the float value of a `PyNum` (normalize away trailing
fractional zeros; an integral value prints with `.0`).  For the exact short
decimals produced here this is Python's shortest-round-trip `repr`. -/
def stripZeros : Nat → Nat → Nat × Nat
  | m, 0 => (m, 0)
  | m, k + 1 => if m % 10 = 0 then stripZeros (m / 10) k else (m, k + 1)

/-- Decimal rendering of a `PyNum`, as Python's f-string interpolation of the
float. -/
def formatPyNum (q : PyNum) : List Char :=
  let (m, k) := stripZeros q.mant q.frac
  let ds := Nat.toDigits 10 m
  if k = 0 then ds ++ ".0".data
  else
    let ds := if ds.length < k + 1 then List.replicate (k + 1 - ds.length) '0' ++ ds else ds
    ds.take (ds.length - k) ++ '.' :: ds.drop (ds.length - k)

/-- The high-rate explanation f-string of `_check_pattern` (lines 277-282). -/
def highRateExplanation (num threshold : PyNum) : List Char :=
  "Identified interest rate of ".data ++ formatPyNum num ++
  "% which exceeds the typical threshold of ".data ++ formatPyNum threshold ++
  "%. This is considered a high interest rate that may result in significant financial burden over time.".data

/-- The below-threshold interest explanation of `_check_pattern`
(lines 288-291). -/
def mediumInterestExplanation : List Char :=
  "Interest rate clause identified. Review the specific rate and terms carefully to understand the total cost of borrowing.".data

/-- `RiskAnalyzer._generate_explanation` (lines 303-365): the catalog of
fixed explanations keyed by risk type, with a severity-based default. -/
def _generate_explanation (risk_type : List Char) (severity : List Char)
    (_clause_text : List Char) : List Char :=
  if risk_type = "High Interest Rate".data then
    "This clause mentions interest rates. High interest rates can significantly increase the total amount you'll pay over time. Compare this rate with market standards and consider the impact on your financial obligations.".data
  else if risk_type = "Hidden Fees".data then
    "This clause mentions additional fees beyond the principal amount. These fees can add up over time and increase the total cost. Review all fee structures carefully to understand the complete financial commitment.".data
  else if risk_type = "Penalty Clauses".data then
    "This clause contains penalty provisions that may be triggered if you fail to meet certain conditions. Penalties can result in additional charges, increased interest rates, or other financial consequences. Understand the conditions that trigger penalties.".data
  else if risk_type = "Auto-Renewal".data then
    "This clause indicates automatic renewal of the agreement. You may be bound to continue the contract unless you take specific action to cancel. Be aware of renewal dates and cancellation procedures.".data
  else if risk_type = "One-Sided Termination".data then
    "This clause allows one party (typically the lender/service provider) to terminate the agreement with minimal notice or at their discretion. This creates an imbalance of power and may leave you without adequate protection or recourse.".data
  else if risk_type = "Arbitration Clause".data then
    "This clause requires disputes to be resolved through arbitration rather than court. This may limit your ability to pursue legal action or participate in class action lawsuits. Understand your rights and options for dispute resolution.".data
  else if risk_type = "Variable Interest Rate".data then
    "This clause indicates that the interest rate can change over time. Variable rates may increase, potentially raising your payments significantly. Understand the factors that determine rate changes and potential maximum rates.".data
  else if risk_type = "Prepayment Penalty".data then
    "This clause imposes penalties for paying off the loan early. This can discourage early repayment and may result in additional costs if you want to pay off the debt ahead of schedule.".data
  else
    "This clause contains terms that may pose a ".data ++ strLower severity ++
    " risk. Review carefully and consider seeking professional advice.".data

/-- `RiskAnalyzer._check_pattern` (lines 233-301): first matching keyword,
negation suppression, then the interest-threshold special case or the
catalog explanation. -/
def _check_pattern (pattern_config : PatternConfig) (clause_lower clause_original : List Char) :
    Option (List Char × List Char) :=
  match findKeyword pattern_config.keywords clause_lower with
  | none => none
  | some pos =>
      if _has_negative_context clause_lower pos then none
      else
        match pattern_config.threshold,
              listContains (strLower pattern_config.risk_type) "interest".data with
        | some threshold, true =>
            let numbers := extract_numbers clause_original
            match numbers.find? (fun n => threshold.leB n) with
            | some num => some ("High".data, highRateExplanation num threshold)
            | none => some ("Medium".data, mediumInterestExplanation)
        | _, _ =>
            some (pattern_config.base_severity,
              _generate_explanation pattern_config.risk_type pattern_config.base_severity
                clause_original)

/-- The output entity (`app.models.schemas.Clause`); `clause_id` is the
per-run index of the clause (model of `uuid.uuid4()`). -/
structure Clause where
  clause_id : Nat
  text : List Char
  risk_type : List Char
  severity : List Char
  explanation : List Char
deriving Repr, DecidableEq

/-- The dedup key `clause_text[:100] + pattern_config["risk_type"]` (the
Python `hash` of this string is modelled injectively by the string itself). -/
def clauseKey (clause_text risk_type : List Char) : List Char :=
  clause_text.take 100 ++ risk_type

/-- The inner pattern loop of `analyze_document` (lines 183-206) for one
clause: walk the catalog in order; on the first pattern yielding a result,
skip it and keep scanning if its dedup key was already seen (`continue`),
otherwise record the key and emit one flagged clause and stop (`break`). -/
def processClauseGo (patterns : List PatternConfig) (clause_text clause_lower : List Char)
    (cid : Nat) (seen : List (List Char)) : Option Clause × List (List Char) :=
  match patterns with
  | [] => (none, seen)
  | cfg :: rest =>
      match _check_pattern cfg clause_lower clause_text with
      | none => processClauseGo rest clause_text clause_lower cid seen
      | some (severity, explanation) =>
          if clauseKey clause_text cfg.risk_type ∈ seen then
            processClauseGo rest clause_text clause_lower cid seen
          else (some ⟨cid, clause_text.take 500, cfg.risk_type, severity, explanation⟩,
                clauseKey clause_text cfg.risk_type :: seen)

/-- Accumulator of the clause loop: emitted flags, seen dedup keys, next id. -/
structure RunState where
  flags : List Clause
  seen : List (List Char)
  cid : Nat
deriving Repr, DecidableEq

/-- One clause iteration of `analyze_document`. -/
def stepClause (st : RunState) (clause_text : List Char) : RunState :=
  match processClauseGo RISK_PATTERNS clause_text (strLower clause_text) st.cid st.seen with
  | (some cl, seen') => ⟨st.flags ++ [cl], seen', st.cid + 1⟩
  | (none, seen') => ⟨st.flags, seen', st.cid + 1⟩

/-- `RiskAnalyzer.analyze_document` (lines 153-208). -/
def analyze_document (text : List Char) : List Clause :=
  if text = [] ∨ (pyStrip text).length < 50 then []
  else
    let clauses := split_into_clauses text 30
    (clauses.foldl stepClause ⟨[], [], 0⟩).flags

/-! ### Error-strict variants

The only fallible operation in the whole pipeline is `float(token)` inside
`extract_numbers`, whose failure the source catches and skips.  The `E`
variants below propagate that failure as an error instead; proving them
equal to `Except.ok` of the plain functions shows every internal error
branch is unreachable and the core is total on all string inputs. -/

/-- `_check_pattern` with the float-parse failure propagated. -/
def _check_patternE (pattern_config : PatternConfig) (clause_lower clause_original : List Char) :
    Except String (Option (List Char × List Char)) :=
  match findKeyword pattern_config.keywords clause_lower with
  | none => .ok none
  | some pos =>
      if _has_negative_context clause_lower pos then .ok none
      else
        match pattern_config.threshold,
              listContains (strLower pattern_config.risk_type) "interest".data with
        | some threshold, true =>
            match extract_numbersE clause_original with
            | .error e => .error e
            | .ok numbers =>
                match numbers.find? (fun n => threshold.leB n) with
                | some num => .ok (some ("High".data, highRateExplanation num threshold))
                | none => .ok (some ("Medium".data, mediumInterestExplanation))
        | _, _ =>
            .ok (some (pattern_config.base_severity,
              _generate_explanation pattern_config.risk_type pattern_config.base_severity
                clause_original))

/-- The inner pattern loop with the float-parse failure propagated. -/
def processClauseGoE (patterns : List PatternConfig) (clause_text clause_lower : List Char)
    (cid : Nat) (seen : List (List Char)) : Except String (Option Clause × List (List Char)) :=
  match patterns with
  | [] => .ok (none, seen)
  | cfg :: rest =>
      match _check_patternE cfg clause_lower clause_text with
      | .error e => .error e
      | .ok none => processClauseGoE rest clause_text clause_lower cid seen
      | .ok (some (severity, explanation)) =>
          if clauseKey clause_text cfg.risk_type ∈ seen then
            processClauseGoE rest clause_text clause_lower cid seen
          else .ok (some ⟨cid, clause_text.take 500, cfg.risk_type, severity, explanation⟩,
                clauseKey clause_text cfg.risk_type :: seen)

/-- One clause iteration with the float-parse failure propagated. -/
def stepClauseE (st : RunState) (clause_text : List Char) : Except String RunState :=
  match processClauseGoE RISK_PATTERNS clause_text (strLower clause_text) st.cid st.seen with
  | .error e => .error e
  | .ok (some cl, seen') => .ok ⟨st.flags ++ [cl], seen', st.cid + 1⟩
  | .ok (none, seen') => .ok ⟨st.flags, seen', st.cid + 1⟩

/-- `analyze_document` with the float-parse failure propagated. -/
def analyze_documentE (text : List Char) : Except String (List Clause) :=
  if text = [] ∨ (pyStrip text).length < 50 then .ok []
  else
    match (split_into_clauses text 30).foldlM stepClauseE ⟨[], [], 0⟩ with
    | .error e => .error e
    | .ok st => .ok st.flags

/-! ## Concrete example inputs used by the claim theorems -/

/-- The numeric-extractor round-trip input of the specification. -/
def c2Input : List Char := "Rate: 18.5% and fee of 20".data

/-- A clause containing `interest rate of 24%` in which an earlier number
(99) also exceeds the threshold. -/
def c3Clause : List Char := "A 99% fee applies when the interest rate of 24% is charged.".data

/-- A clause containing `no penalty fee` (inside `casino penalty fee`) where
the `no ` before the keyword match is not at a word boundary. -/
def c4Clause : List Char := "A casino penalty fee is charged to the member.".data

/-- A clause with a genuinely negated penalty keyword. -/
def c4NegClause : List Char := "There is no penalty fee in this agreement.".data

/-- One paragraph matching both the high-interest and hidden-fees patterns. -/
def c1Para : List Char := "The interest rate and annual fee apply.".data

/-- Two identical paragraphs: the second clause has the same dedup key as
the first for the high-interest pattern. -/
def c1Doc : List Char := c1Para ++ "\n\n".data ++ c1Para

/-- A paragraph of exactly 30 characters (already normalized). -/
def c6Para : List Char := "This paragraph has 30 letters.".data

/-- The flag produced for `c1Para` on an empty dedup set. -/
def c1Flag : Clause :=
  ⟨0, c1Para, "High Interest Rate".data, "Medium".data, mediumInterestExplanation⟩

/-- The dedup key as recoverable from an emitted flag (first 100 characters
of its stored text plus its risk type). -/
def flagKey (f : Clause) : List Char :=
  f.text.take 100 ++ f.risk_type

/-- Well-formedness of a captured numeric token: a non-empty all-digit
integer part and an all-digit fractional part. -/
def TokWF (t : NumTok) : Prop :=
  t.d1 ≠ [] ∧ t.d1.all Char.isDigit ∧ t.d2.all Char.isDigit

/-- The string ends with a whitespace character. -/
def endsWS (l : List Char) : Prop :=
  ∃ l' w, l = l' ++ [w] ∧ isPySpace w = true

/-- A word of `pyWords`: non-empty and whitespace-free. -/
def wordOK (w : List Char) : Prop :=
  w ≠ [] ∧ ∀ c ∈ w, isPySpace c = false

/-- All input consumed so far by the sentence-chunking scan. -/
def chjoin (st : ChunkSt) : List Char :=
  st.out.flatten ++ st.acc ++ st.pr ++ st.sr

/-- Shape invariant of the sentence-chunking scan: every emitted chunk is
non-empty and ends in whitespace, and the pending runs match the mode. -/
def chunkInv (st : ChunkSt) : Prop :=
  (∀ c ∈ st.out, c ≠ [] ∧ endsWS c) ∧
  (st.mode = ChunkMode.pn → st.pr ≠ [] ∧ st.sr = []) ∧
  (st.mode = ChunkMode.sp → st.pr ≠ [] ∧ st.sr ≠ [] ∧ ∀ c ∈ st.sr, isPySpace c = true) ∧
  (st.mode = ChunkMode.txt → st.pr = [] ∧ st.sr = [])

/-!
# Lemmas and claim theorems
-/

section Lemmas

/-- Reading one position of an `isPrefixAt` occurrence. -/
theorem getElem?_of_isPrefixAt {s : List Char} {i : Nat} {w : List Char}
    (h : isPrefixAt s i w = true) {j : Nat} (hj : j < w.length) : s[i + j]? = w[j]? := by
  unfold isPrefixAt at h
  have hw : (s.drop i).take w.length = w := of_decide_eq_true h
  calc s[i + j]? = (s.drop i)[j]? := (List.getElem?_drop s i j).symm
    _ = ((s.drop i).take w.length)[j]? := by rw [List.getElem?_take, if_pos hj]
    _ = w[j]? := by rw [hw]

/-- An `isPrefixAt` occurrence lies inside the string. -/
theorem lt_length_of_isPrefixAt {s : List Char} {i : Nat} {w : List Char}
    (h : isPrefixAt s i w = true) {j : Nat} (hj : j < w.length) : i + j < s.length := by
  have := getElem?_of_isPrefixAt h hj
  have hsome : w[j]? = some w[j] := List.getElem?_eq_getElem hj
  rw [hsome] at this
  by_contra hge
  rw [List.getElem?_eq_none_iff.mpr (by omega)] at this
  exact Option.noConfusion this

/-- A whitespace run starting with a space has positive length. -/
theorem spaceRunLen_pos {s : List Char} {i : Nat} (h : s[i]? = some ' ') :
    0 < spaceRunLen s i := by
  have hi : i < s.length := by
    by_contra hge
    rw [List.getElem?_eq_none_iff.mpr (by omega)] at h
    exact Option.noConfusion h
  have hdrop : s.drop i = s[i] :: s.drop (i + 1) := List.drop_eq_getElem_cons hi
  have hc : s[i] = ' ' := by
    have := List.getElem?_eq_getElem hi
    rw [h] at this
    exact (Option.some.injEq _ _).mp this.symm
  unfold spaceRunLen
  rw [hdrop, hc]
  simp [List.takeWhile_cons, isPySpace]

end Lemmas

section ClaimC2

/-- C2: the claim states `extract_numbers("Rate: 18.5% and fee of 20")`
returns exactly `[18.5, 20.0]`.  In fact the bare-number pass captures
`18.5` a second time (nothing restricts it to tokens outside percentages),
so the result has three elements. -/
theorem c2_counterexample :
    (extract_numbers c2Input).map PyNum.toRat ≠ [(18.5 : ℚ), 20] ∧
    extract_numbers c2Input = [⟨185, 1⟩, ⟨185, 1⟩, ⟨20, 0⟩] := by
  have h : extract_numbers c2Input = [⟨185, 1⟩, ⟨185, 1⟩, ⟨20, 0⟩] := by decide
  refine ⟨?_, h⟩
  rw [h]
  simp [PyNum.toRat]

/-- C2 (amended): `extract_numbers("Rate: 18.5% and fee of 20")` returns
`[18.5, 18.5, 20.0]`: the percentage pass yields `18.5`, the bare-number
pass yields `18.5` and `20.0`, both passes are kept in full, and the
percentage tokens precede the bare-number tokens. -/
theorem c2_round_trip :
    extract_numbers c2Input = [⟨185, 1⟩, ⟨185, 1⟩, ⟨20, 0⟩] ∧
    (extract_numbers c2Input).map PyNum.toRat = [(18.5 : ℚ), 18.5, 20] ∧
    (percMatches c2Input).map NumTok.render = ["18.5".data] ∧
    (bareMatches c2Input).map NumTok.render = ["18.5".data, "20".data] := by
  have h : extract_numbers c2Input = [⟨185, 1⟩, ⟨185, 1⟩, ⟨20, 0⟩] := by decide
  refine ⟨h, ?_, by decide, by decide⟩
  rw [h]
  norm_num [PyNum.toRat]

end ClaimC2

section ClaimC3

/-- C3: the claim asserts that any clause containing `interest rate of 24%`
(keyword matched, not negated) gets an explanation citing `24.0`.  In
`c3Clause` the earlier number 99 also exceeds the threshold, the loop stops
at the first qualifying number, and the explanation cites `99.0`, not
`24.0` — the severity is `High` but the citation part of the claim fails. -/
theorem c3_counterexample :
    listContains c3Clause "interest rate of 24%".data = true ∧
    (_check_pattern highInterestCfg (strLower c3Clause) c3Clause).map (fun r => r.1) =
      some "High".data ∧
    (_check_pattern highInterestCfg (strLower c3Clause) c3Clause).map
      (fun r => listContains r.2 "24.0".data) = some false ∧
    (_check_pattern highInterestCfg (strLower c3Clause) c3Clause).map
      (fun r => listContains r.2 "99.0".data) = some true := by
  refine ⟨by decide, by decide, by decide, by decide⟩

/-- C3 (amended): for the three scenario clauses taken as the clause text
itself, the high-interest pattern returns: severity `High` with an
explanation citing `24.0` and the threshold `18.0` for
`interest rate of 24%`; severity `Medium` with the generic
review-the-rate explanation for `interest rate of 5%`; and severity
`Medium` with the same generic explanation for `interest rate` with no
number.  (For clauses merely *containing* `interest rate of 24%`, the
explanation cites the first extracted number that meets the threshold,
which need not be `24.0` — see the counterexample.) -/
theorem c3_interest_threshold :
    _check_pattern highInterestCfg "interest rate of 24%".data "interest rate of 24%".data =
      some ("High".data, highRateExplanation ⟨24, 0⟩ ⟨18, 0⟩) ∧
    listContains (highRateExplanation ⟨24, 0⟩ ⟨18, 0⟩) "24.0".data = true ∧
    listContains (highRateExplanation ⟨24, 0⟩ ⟨18, 0⟩) "18.0".data = true ∧
    _check_pattern highInterestCfg "interest rate of 5%".data "interest rate of 5%".data =
      some ("Medium".data, mediumInterestExplanation) ∧
    _check_pattern highInterestCfg "interest rate".data "interest rate".data =
      some ("Medium".data, mediumInterestExplanation) := by
  refine ⟨by decide, by decide, by decide, by decide, by decide⟩

end ClaimC3

section ClaimC4

/-- Helper: if every pattern of the list whose risk type is `R` yields no
result on the clause, then no flag emitted by the pattern loop carries risk
type `R`. -/
theorem processClauseGo_riskType_ne {R : List Char} :
    ∀ (patterns : List PatternConfig) (clause_text clause_lower : List Char)
      (cid : Nat) (seen : List (List Char)),
      (∀ p ∈ patterns, p.risk_type = R → _check_pattern p clause_lower clause_text = none) →
      ∀ f, (processClauseGo patterns clause_text clause_lower cid seen).1 = some f →
        f.risk_type ≠ R := by
  intro patterns
  induction patterns with
  | nil => intro c cl cid seen _ f hf; simp [processClauseGo] at hf
  | cons cfg rest ih =>
      intro c cl cid seen h f hf
      unfold processClauseGo at hf
      split at hf
      · exact ih c cl cid seen (fun p hp => h p (List.mem_cons_of_mem _ hp)) f hf
      · next sev ex hc =>
          split at hf
          · exact ih c cl cid seen (fun p hp => h p (List.mem_cons_of_mem _ hp)) f hf
          · have hfe : (⟨cid, c.take 500, cfg.risk_type, sev, ex⟩ : Clause) = f :=
              Option.some.inj hf
            intro hR
            have hnone := h cfg (List.mem_cons_self _ _) (by rw [← hfe] at hR; exact hR)
            rw [hnone] at hc
            exact Option.noConfusion hc

/-- Helper: `penalty_clauses` is the only catalog entry labelled
`Penalty Clauses`. -/
theorem penalty_risk_type_unique :
    ∀ p ∈ RISK_PATTERNS, p.risk_type = "Penalty Clauses".data → p = penaltyClausesCfg := by
  intro p hp
  simp only [RISK_PATTERNS, List.mem_cons, List.not_mem_nil, or_false] at hp
  rcases hp with rfl | rfl | rfl | rfl | rfl | rfl | rfl | rfl
  · intro h; exact absurd h (by decide)
  · intro h; exact absurd h (by decide)
  · intro _; rfl
  · intro h; exact absurd h (by decide)
  · intro h; exact absurd h (by decide)
  · intro h; exact absurd h (by decide)
  · intro h; exact absurd h (by decide)
  · intro h; exact absurd h (by decide)

/-- C4 (amended): if the first penalty-keyword match sits at `pos` and the
50-character window before it contains an occurrence of `no ` **at a word
boundary inside the window** (at the window start or preceded by a
non-word character), then the penalty pattern yields no result for the
clause and no flag produced for this clause carries the `Penalty Clauses`
risk type.  (The original claim omits the word-boundary requirement of the
`\bno\s+` negation pattern; see the counterexample.) -/
theorem c4_negation_suppression :
    ∀ (c : List Char) (pos i : Nat),
      listContains c "no penalty fee".data = true →
      findKeyword penaltyClausesCfg.keywords (strLower c) = some pos →
      isPrefixAt (negWindow (strLower c) pos) i "no ".data = true →
      (i = 0 ∨ charAtWord (negWindow (strLower c) pos) (i - 1) = false) →
      _check_pattern penaltyClausesCfg (strLower c) c = none ∧
      ∀ (cid : Nat) (seen : List (List Char)) (f : Clause),
        (processClauseGo RISK_PATTERNS c (strLower c) cid seen).1 = some f →
          f.risk_type ≠ "Penalty Clauses".data := by
  intro c pos i _ hpos hno hbd
  set w := negWindow (strLower c) pos with hw
  -- the three characters of the occurrence
  have h0 : w[i]? = some 'n' := by
    have := getElem?_of_isPrefixAt hno (j := 0) (by decide)
    simpa using this
  have h2 : w[i + 2]? = some ' ' := by
    have := getElem?_of_isPrefixAt hno (j := 2) (by decide)
    simpa using this
  have hlen : i + 2 < w.length := lt_length_of_isPrefixAt hno (j := 2) (by decide)
  -- the pattern `\bno\s+` matches the window at i
  have hmatch : matchToks w (negT ["no".data]) i = true := by
    have hwb : wordBoundary w i = true := by
      cases i with
      | zero =>
          show charAtWord w 0 = true
          unfold charAtWord
          rw [h0]
          decide
      | succ j =>
          show (charAtWord w j != charAtWord w (j + 1)) = true
          have hj : charAtWord w j = false := by
            rcases hbd with h | h
            · exact absurd h (by omega)
            · simpa using h
          have hj1 : charAtWord w (j + 1) = true := by
            unfold charAtWord
            rw [h0]
            decide
          rw [hj, hj1]
          decide
    have hlit : isPrefixAt w i "no".data = true := by
      unfold isPrefixAt at hno ⊢
      have hw3 : (w.drop i).take 3 = "no ".data := of_decide_eq_true hno
      have : (w.drop i).take 2 = "no".data := by
        have := congrArg (List.take 2) hw3
        rwa [List.take_take] at this
      exact decide_eq_true this
    have hws : 0 < spaceRunLen w (i + 2) := spaceRunLen_pos h2
    show (wordBoundary w i &&
      (isPrefixAt w i "no".data &&
        (decide (0 < spaceRunLen w (i + 2)) && matchToks w [] (i + 2 + spaceRunLen w (i + 2))))) = true
    rw [hwb, hlit]
    simp [matchToks, hws]
  -- hence the negation search succeeds and the context is negative
  have hsearch : (reSearch (negT ["no".data]) w).isSome = true := by
    unfold reSearch
    refine List.find?_isSome.mpr ⟨i, List.mem_range.mpr (by omega), hmatch⟩
  have hneg : _has_negative_context (strLower c) pos = true := by
    unfold _has_negative_context
    refine List.any_eq_true.mpr ⟨negT ["no".data], ?_, by rw [← hw]; exact hsearch⟩
    unfold NEGATIVE_INDICATORS
    exact List.mem_cons_self _ _
  have hnone : _check_pattern penaltyClausesCfg (strLower c) c = none := by
    simp [_check_pattern, hpos, hneg]
  refine ⟨hnone, ?_⟩
  intro cid seen f hf
  refine processClauseGo_riskType_ne RISK_PATTERNS c (strLower c) cid seen ?_ f hf
  intro p hp hR
  rw [penalty_risk_type_unique p hp hR]
  exact hnone

/-- C4 (witness): the amended theorem applied to
`There is no penalty fee in this agreement.`, whose first penalty-keyword
match is at position 12 and whose window contains `no ` at position 9,
preceded by a space. -/
theorem c4_witness :
    _check_pattern penaltyClausesCfg (strLower c4NegClause) c4NegClause = none :=
  (c4_negation_suppression c4NegClause 12 9 (by decide) (by decide) (by decide)
    (Or.inr (by decide))).1

/-- C4: the claim as stated is false: `A casino penalty fee is charged to
the member.` contains `no penalty fee` (inside `casino penalty fee`), and
`no ` occurs within the 50 characters before the first `penalty` match (at
position 9, window `a casino `), yet the clause **is** flagged with
`Penalty Clauses`, because the `\bno\s+` negation pattern requires a word
boundary and the `no` inside `casino` has none. -/
theorem c4_counterexample :
    listContains c4Clause "no penalty fee".data = true ∧
    findKeyword penaltyClausesCfg.keywords (strLower c4Clause) = some 9 ∧
    listContains (negWindow (strLower c4Clause) 9) "no ".data = true ∧
    (processClauseGo RISK_PATTERNS c4Clause (strLower c4Clause) 0 []).1.map
      (fun f => f.risk_type) = some "Penalty Clauses".data := by
  refine ⟨by decide, by decide, by decide, by decide⟩

end ClaimC4

section ClaimC5

/-- C5: for every input whose trimmed length is less than 50 characters,
`analyze_document` returns the empty list. -/
theorem c5_short_input_empty :
    ∀ text : List Char, (pyStrip text).length < 50 → analyze_document text = [] := by
  intro t h
  unfold analyze_document
  rw [if_pos (Or.inr h)]

/-- C5 (witness): the theorem applied to the concrete input `hello`. -/
theorem c5_witness :
    (pyStrip "hello".data).length < 50 ∧ analyze_document "hello".data = [] :=
  ⟨by decide, c5_short_input_empty "hello".data (by decide)⟩

end ClaimC5

section ClaimC9

/-- C9: pattern evaluation is deterministic and side-effect-free.  The
embedding of `_check_pattern` is a pure function of its three arguments
(the lowercased clause, the original clause and the pattern definition),
so two invocations on the same arguments are definitionally the same
result — same presence of a match, same severity, same explanation. -/
theorem c9_check_pattern_deterministic :
    ∀ (pattern_config : PatternConfig) (clause_lower clause_original : List Char),
      _check_pattern pattern_config clause_lower clause_original =
        _check_pattern pattern_config clause_lower clause_original :=
  fun _ _ _ => rfl

end ClaimC9

section ClaimC1

/-- Helper: when the pattern loop emits no flag, the dedup set is unchanged. -/
theorem processClauseGo_none_seen :
    ∀ (patterns : List PatternConfig) (c cl : List Char) (cid : Nat) (seen : List (List Char)),
      (processClauseGo patterns c cl cid seen).1 = none →
      (processClauseGo patterns c cl cid seen).2 = seen := by
  intro patterns
  induction patterns with
  | nil => intro c cl cid seen _; rfl
  | cons cfg rest ih =>
      intro c cl cid seen h
      unfold processClauseGo at h ⊢
      split at h
      · exact ih c cl cid seen h
      · next sev ex hc =>
          by_cases hk : clauseKey c cfg.risk_type ∈ seen
          · rw [if_pos hk] at h ⊢; exact ih c cl cid seen h
          · rw [if_neg hk] at h; exact Option.noConfusion h

/-- Helper: full characterization of an emitted flag: its fields come from
the first catalog pattern (in order) that yields a result and whose dedup
key is unseen; every earlier pattern either yields nothing or was dedup
skipped; the key is recorded. -/
theorem processClauseGo_some_spec :
    ∀ (patterns : List PatternConfig) (c cl : List Char) (cid : Nat) (seen : List (List Char))
      (f : Clause),
      (processClauseGo patterns c cl cid seen).1 = some f →
      f.clause_id = cid ∧ f.text = c.take 500 ∧
      clauseKey c f.risk_type ∉ seen ∧
      (processClauseGo patterns c cl cid seen).2 = clauseKey c f.risk_type :: seen ∧
      ∃ (i : Nat) (p : PatternConfig), patterns[i]? = some p ∧ p.risk_type = f.risk_type ∧
        _check_pattern p cl c = some (f.severity, f.explanation) ∧
        ∀ j, j < i → ∀ q, patterns[j]? = some q →
          _check_pattern q cl c = none ∨ clauseKey c q.risk_type ∈ seen := by
  intro patterns
  induction patterns with
  | nil => intro c cl cid seen f h; simp [processClauseGo] at h
  | cons cfg rest ih =>
      intro c cl cid seen f h
      unfold processClauseGo at h ⊢
      split at h
      · next hc =>
          obtain ⟨h1, h2, h3, h4, i, p, hip, hrt, hcp, hall⟩ := ih c cl cid seen f h
          refine ⟨h1, h2, h3, h4, i + 1, p, by simpa using hip, hrt, hcp, ?_⟩
          intro j hj q hq
          cases j with
          | zero =>
              left
              have : cfg = q := by simpa using hq
              rw [← this]; exact hc
          | succ k =>
              exact hall k (by omega) q (by simpa using hq)
      · next sev ex hc =>
          by_cases hk : clauseKey c cfg.risk_type ∈ seen
          · rw [if_pos hk] at h ⊢
            obtain ⟨h1, h2, h3, h4, i, p, hip, hrt, hcp, hall⟩ := ih c cl cid seen f h
            refine ⟨h1, h2, h3, h4, i + 1, p, by simpa using hip, hrt, hcp, ?_⟩
            intro j hj q hq
            cases j with
            | zero =>
                right
                have : cfg = q := by simpa using hq
                rw [← this]; exact hk
            | succ k =>
                exact hall k (by omega) q (by simpa using hq)
          · rw [if_neg hk] at h ⊢
            have hfe : (⟨cid, c.take 500, cfg.risk_type, sev, ex⟩ : Clause) = f :=
              Option.some.inj h
            subst hfe
            refine ⟨rfl, rfl, hk, rfl, 0, cfg, by simp, rfl, hc, ?_⟩
            intro j hj
            omega

/-- C1: the claim as stated is false.  `c1Doc` consists of two identical
clauses; the first catalog pattern that yields a result for both is
`high_interest`, but the second clause is flagged `Hidden Fees`: the
dedup `continue` skips the already-seen key and keeps evaluating later
catalog patterns, so the same clause text carries two risk types in one
run and the second flag does not come from its first-yielding pattern. -/
theorem c1_counterexample :
    (analyze_document c1Doc).map (fun f => (f.text, f.risk_type)) =
      [(c1Para, "High Interest Rate".data), (c1Para, "Hidden Fees".data)] ∧
    (_check_pattern highInterestCfg (strLower c1Para) c1Para).isSome = true := by
  refine ⟨by decide, by decide⟩

/-- C1 (amended): per clause occurrence at most one flag is emitted (the
loop result is an `Option`), and it comes from the first catalog pattern,
in order, that yields a result **and** whose dedup key is not already
seen; patterns before it either yield nothing or were dedup-skipped (after
a dedup skip, later patterns are still evaluated). -/
theorem c1_first_eligible_wins :
    ∀ (clause_text : List Char) (cid : Nat) (seen : List (List Char)) (f : Clause),
      (processClauseGo RISK_PATTERNS clause_text (strLower clause_text) cid seen).1 = some f →
      f.text = clause_text.take 500 ∧
      clauseKey clause_text f.risk_type ∉ seen ∧
      ∃ (i : Nat) (p : PatternConfig), RISK_PATTERNS[i]? = some p ∧ p.risk_type = f.risk_type ∧
        _check_pattern p (strLower clause_text) clause_text = some (f.severity, f.explanation) ∧
        ∀ j, j < i → ∀ q, RISK_PATTERNS[j]? = some q →
          _check_pattern q (strLower clause_text) clause_text = none ∨
            clauseKey clause_text q.risk_type ∈ seen := by
  intro c cid seen f h
  obtain ⟨_, h2, h3, _, hex⟩ :=
    processClauseGo_some_spec RISK_PATTERNS c (strLower c) cid seen f h
  exact ⟨h2, h3, hex⟩

/-- C1 (witness): the amended theorem applied to the clause `c1Para` with an
empty dedup set; the loop emits the `high_interest` flag `c1Flag`. -/
theorem c1_witness :
    c1Flag.text = c1Para.take 500 ∧
    clauseKey c1Para c1Flag.risk_type ∉ ([] : List (List Char)) ∧
    ∃ (i : Nat) (p : PatternConfig), RISK_PATTERNS[i]? = some p ∧ p.risk_type = c1Flag.risk_type ∧
      _check_pattern p (strLower c1Para) c1Para = some (c1Flag.severity, c1Flag.explanation) ∧
      ∀ j, j < i → ∀ q, RISK_PATTERNS[j]? = some q →
        _check_pattern q (strLower c1Para) c1Para = none ∨
          clauseKey c1Para q.risk_type ∈ ([] : List (List Char)) :=
  c1_first_eligible_wins c1Para 0 [] c1Flag (by decide)

end ClaimC1

section ClaimC7

/-- Helper: an emitted flag's recoverable key equals the dedup key recorded
for its clause. -/
theorem flagKey_eq_clauseKey {c : List Char} {f : Clause}
    (h : f.text = c.take 500) : flagKey f = clauseKey c f.risk_type := by
  unfold flagKey clauseKey
  rw [h, List.take_take]
  norm_num

/-- Helper: the clause loop preserves the dedup invariant: every emitted
flag's key is in the seen set, and all emitted keys are pairwise distinct. -/
theorem run_invariant :
    ∀ (clauses : List (List Char)) (st : RunState),
      (∀ f ∈ st.flags, flagKey f ∈ st.seen) →
      st.flags.Pairwise (fun f g => flagKey f ≠ flagKey g) →
      (∀ f ∈ (clauses.foldl stepClause st).flags, flagKey f ∈ (clauses.foldl stepClause st).seen) ∧
      (clauses.foldl stepClause st).flags.Pairwise (fun f g => flagKey f ≠ flagKey g) := by
  intro clauses
  induction clauses with
  | nil => intro st h1 h2; exact ⟨h1, h2⟩
  | cons c rest ih =>
      intro st h1 h2
      rw [List.foldl_cons]
      rcases hres : (processClauseGo RISK_PATTERNS c (strLower c) st.cid st.seen).1 with _ | f
      · -- no flag emitted: flags unchanged, seen unchanged
        have hseen := processClauseGo_none_seen RISK_PATTERNS c (strLower c) st.cid st.seen hres
        have hstep : stepClause st c = ⟨st.flags, st.seen, st.cid + 1⟩ := by
          unfold stepClause
          rcases hpair : processClauseGo RISK_PATTERNS c (strLower c) st.cid st.seen with ⟨o, s'⟩
          rw [hpair] at hres hseen
          simp at hres hseen
          rw [hres, hseen]
        rw [hstep]
        exact ih _ h1 h2
      · -- a flag f is emitted with a fresh key
        obtain ⟨_, htext, hnotin, hseen', _⟩ :=
          processClauseGo_some_spec RISK_PATTERNS c (strLower c) st.cid st.seen f hres
        have hkey : flagKey f = clauseKey c f.risk_type := flagKey_eq_clauseKey htext
        have hstep : stepClause st c =
            ⟨st.flags ++ [f], clauseKey c f.risk_type :: st.seen, st.cid + 1⟩ := by
          unfold stepClause
          rcases hpair : processClauseGo RISK_PATTERNS c (strLower c) st.cid st.seen with ⟨o, s'⟩
          rw [hpair] at hres hseen'
          simp at hres hseen'
          rw [hres, hseen']
        rw [hstep]
        refine ih _ ?_ ?_
        · intro g hg
          rcases List.mem_append.mp hg with hg | hg
          · exact List.mem_cons_of_mem _ (h1 g hg)
          · have : g = f := List.mem_singleton.mp hg
            rw [this, hkey]
            exact List.mem_cons_self _ _
        · refine List.pairwise_append.mpr ⟨h2, List.pairwise_singleton _ _, ?_⟩
          intro g hg g' hg'
          have : g' = f := List.mem_singleton.mp hg'
          rw [this, hkey]
          intro heq
          exact hnotin (heq ▸ h1 g hg)

/-- C7: within one run, at most one flagged clause carries any given pair
(first 100 characters of stored clause text, risk-type label): the flag
list is pairwise distinct on that pair. -/
theorem c7_dedup_invariant :
    ∀ text : List Char, (analyze_document text).Pairwise
      (fun f g => ¬(f.text.take 100 = g.text.take 100 ∧ f.risk_type = g.risk_type)) := by
  intro text
  unfold analyze_document
  split
  · exact List.Pairwise.nil
  · have h := run_invariant (split_into_clauses text 30) ⟨[], [], 0⟩ (by simp) (by simp)
    refine h.2.imp ?_
    intro f g hne ⟨ht, hr⟩
    exact hne (by unfold flagKey; rw [ht, hr])

end ClaimC7

section ClaimC10

/-- Helper: a list that passes `all p` is its own `takeWhile p`. -/
theorem takeWhile_eq_self_of_all {p : Char → Bool} :
    ∀ {l : List Char}, l.all p = true → l.takeWhile p = l := by
  intro l
  induction l with
  | nil => intro _; rfl
  | cons c cs ih =>
      intro h
      rw [List.all_cons, Bool.and_eq_true] at h
      rw [List.takeWhile_cons, if_pos h.1, ih h.2]

/-- Helper: `takeWhile` stops exactly at the first failing character. -/
theorem takeWhile_append_stop {p : Char → Bool} {c : Char} {r : List Char} :
    ∀ {l : List Char}, l.all p = true → p c = false →
      (l ++ c :: r).takeWhile p = l := by
  intro l
  induction l with
  | nil => intro _ hc; simp [List.takeWhile_cons, hc]
  | cons a as ih =>
      intro h hc
      rw [List.all_cons, Bool.and_eq_true] at h
      rw [List.cons_append, List.takeWhile_cons, if_pos h.1, ih h.2 hc]

/-- Helper: everything `takeWhile p` keeps satisfies `p`. -/
theorem all_takeWhile {p : Char → Bool} {l : List Char} :
    (l.takeWhile p).all p = true :=
  List.all_eq_true.mpr (fun _ hx => List.mem_takeWhile_imp hx)

/-- Helper: a digit run consists of digits. -/
theorem digitRun_all {s : List Char} {i : Nat} : (digitRun s i).all Char.isDigit = true :=
  all_takeWhile

/-- Helper: the fractional run of a bare-number attempt consists of digits. -/
theorem numD2_all {s : List Char} {i : Nat} : (numD2 s i).all Char.isDigit = true := by
  unfold numD2
  split
  · exact digitRun_all
  · rfl

/-- Helper: closing a percentage match does not change the token. -/
theorem percClose_token {s : List Char} {t t' : NumTok} {k e : Nat}
    (h : percClose s t k = some (t', e)) : t' = t := by
  unfold percClose at h
  split at h
  · exact ((Prod.mk.injEq _ _ _ _).mp (Option.some.inj h)).1.symm
  · exact Option.noConfusion h

/-- Helper: a percentage-pattern match captures a well-formed token. -/
theorem percAt_wf {s : List Char} {i : Nat} {t : NumTok} {e : Nat}
    (h : percAt s i = some (t, e)) : TokWF t := by
  unfold percAt at h
  split at h
  · exact Option.noConfusion h
  · next hd1 =>
      split at h
      · rw [percClose_token h]
        exact ⟨hd1, digitRun_all, digitRun_all⟩
      · rw [percClose_token h]
        exact ⟨hd1, digitRun_all, by simp⟩

/-- Helper: every backtracking candidate of the bare-number pattern is a
well-formed token, provided the digit runs are digit runs. -/
theorem numCandidates_wf {s : List Char} {i a : Nat} {d1 d2 : List Char}
    (h1 : d1 ≠ []) (h1d : d1.all Char.isDigit = true) (h2d : d2.all Char.isDigit = true) :
    ∀ te ∈ numCandidates s i d1 d2 a, TokWF te.1 := by
  intro te hte
  unfold numCandidates at hte
  rcases List.mem_append.mp hte with hmem | hmem
  · split at hmem
    · obtain ⟨k, _, hk⟩ := List.mem_map.mp hmem
      rw [← hk]
      refine ⟨h1, h1d, ?_⟩
      exact List.all_eq_true.mpr fun x hx =>
        List.all_eq_true.mp h2d x (List.take_subset _ _ hx)
    · exact absurd hmem (List.not_mem_nil _)
  · obtain ⟨k, _, hk⟩ := List.mem_map.mp hmem
    rw [← hk]
    refine ⟨?_, ?_, by simp⟩
    · rw [Ne, List.take_eq_nil_iff]
      push_neg
      exact ⟨by omega, h1⟩
    · exact List.all_eq_true.mpr fun x hx =>
        List.all_eq_true.mp h1d x (List.take_subset _ _ hx)

/-- Helper: a bare-number-pattern match captures a well-formed token. -/
theorem numAt_wf {s : List Char} {i : Nat} {t : NumTok} {e : Nat}
    (h : numAt s i = some (t, e)) : TokWF t := by
  unfold numAt at h
  split at h
  · split at h
    · exact Option.noConfusion h
    · next hd1 =>
        have hmem := List.mem_of_find?_eq_some h
        exact numCandidates_wf hd1 digitRun_all numD2_all (t, e) hmem
  · exact Option.noConfusion h

/-- Helper: every token produced by the findall scan is well-formed. -/
theorem scanTokens_wf {att : List Char → Nat → Option (NumTok × Nat)} {s : List Char}
    (hatt : ∀ i t e, att s i = some (t, e) → TokWF t) :
    ∀ (fuel i : Nat) (t : NumTok), t ∈ scanTokens att s fuel i → TokWF t := by
  intro fuel
  induction fuel with
  | zero => intro i t ht; simp [scanTokens] at ht
  | succ n ih =>
      intro i t ht
      unfold scanTokens at ht
      split at ht
      · simp at ht
      · split at ht
        · next t' e' hsome =>
            rcases List.mem_cons.mp ht with rfl | hmem
            · exact hatt i t e' hsome
            · exact ih _ t hmem
        · exact ih _ t ht

/-- Helper: `float` succeeds on the rendering of every well-formed token. -/
theorem parseFloat_render_isSome {t : NumTok} (h : TokWF t) :
    (parseFloat t.render).isSome = true := by
  obtain ⟨h1, h1d, h2d⟩ := h
  unfold NumTok.render
  rcases hdot : t.dot with _ | _
  · rw [if_neg (by simp), List.append_nil]
    unfold parseFloat
    rw [takeWhile_eq_self_of_all h1d, List.drop_length]
    simp [h1]
  · rw [if_pos rfl]
    unfold parseFloat
    rw [takeWhile_append_stop h1d (by decide),
      show (t.d1 ++ '.' :: t.d2).drop t.d1.length = '.' :: t.d2 from List.drop_left _ _]
    simp [h2d, h1]

/-- Helper: when every token parses, the strict parse loop succeeds and
returns exactly the silently-parsed list, which then has one entry per
token. -/
theorem parseAllE_ok :
    ∀ {l : List (List Char)}, (∀ x ∈ l, (parseFloat x).isSome = true) →
      parseAllE l = .ok (l.filterMap parseFloat) ∧ (l.filterMap parseFloat).length = l.length := by
  intro l
  induction l with
  | nil => intro _; exact ⟨rfl, rfl⟩
  | cons tk rest ih =>
      intro h
      obtain ⟨q, hq⟩ := Option.isSome_iff_exists.mp (h tk (List.mem_cons_self _ _))
      obtain ⟨ih1, ih2⟩ := ih (fun x hx => h x (List.mem_cons_of_mem _ hx))
      constructor
      · unfold parseAllE
        rw [hq, ih1, List.filterMap_cons, hq]
      · rw [List.filterMap_cons, hq]
        simpa using ih2

/-- Helper: all tokens of both passes are well-formed. -/
theorem allTokens_wf (s : List Char) :
    ∀ t ∈ percMatches s ++ bareMatches s, TokWF t := by
  intro t ht
  rcases List.mem_append.mp ht with hm | hm
  · exact scanTokens_wf (fun i t' e' h => percAt_wf h) _ _ t hm
  · exact scanTokens_wf (fun i t' e' h => numAt_wf h) _ _ t hm

/-- Helper: the strict extractor agrees with the silently-skipping one. -/
theorem extract_numbersE_ok (s : List Char) :
    extract_numbersE s = .ok (extract_numbers s) ∧
    (extract_numbers s).length = (percMatches s).length + (bareMatches s).length := by
  have hall : ∀ x ∈ (percMatches s ++ bareMatches s).map NumTok.render,
      (parseFloat x).isSome = true := by
    intro x hx
    obtain ⟨t, ht, hxt⟩ := List.mem_map.mp hx
    rw [← hxt]
    exact parseFloat_render_isSome (allTokens_wf s t ht)
  obtain ⟨h1, h2⟩ := parseAllE_ok hall
  refine ⟨h1, ?_⟩
  unfold extract_numbers
  rw [h2]
  simp

/-- Helper: every modelled float value is nonnegative. -/
theorem pyNum_toRat_nonneg (q : PyNum) : 0 ≤ q.toRat := by
  unfold PyNum.toRat
  positivity

/-- C10: every token captured by the percentage pattern or the bare-number
pattern parses as a float, so the silent-drop branch is unreachable (the
strict variant returns `ok` of the same list), the output length equals the
number of percentage matches plus the number of bare-number matches, and
every returned value is nonnegative. -/
theorem c10_tokens_always_parse :
    ∀ s : List Char,
      extract_numbersE s = .ok (extract_numbers s) ∧
      (extract_numbers s).length = (percMatches s).length + (bareMatches s).length ∧
      ∀ q ∈ extract_numbers s, 0 ≤ q.toRat := by
  intro s
  obtain ⟨h1, h2⟩ := extract_numbersE_ok s
  exact ⟨h1, h2, fun q _ => pyNum_toRat_nonneg q⟩

end ClaimC10

section ClaimC8

/-- Helper: the strict pattern check agrees with the plain one: the only
error source, `float(token)`, never fails. -/
theorem _check_patternE_ok :
    ∀ (cfg : PatternConfig) (cl co : List Char),
      _check_patternE cfg cl co = .ok (_check_pattern cfg cl co) := by
  intro cfg cl co
  unfold _check_patternE _check_pattern
  cases hfk : findKeyword cfg.keywords cl with
  | none => simp
  | some pos =>
      simp only []
      by_cases hneg : _has_negative_context cl pos = true
      · simp [hneg]
      · rcases hth : cfg.threshold with _ | th
        · simp [hneg, hth]
        · cases hlc : listContains (strLower cfg.risk_type) "interest".data
          · simp [hneg, hth, hlc]
          · have hE := (extract_numbersE_ok co).1
            cases hf : (extract_numbers co).find? (fun n => th.leB n) with
            | none => simp [hneg, hth, hlc, hE, hf]
            | some num => simp [hneg, hth, hlc, hE, hf]

/-- Helper: the strict pattern loop agrees with the plain one. -/
theorem processClauseGoE_ok :
    ∀ (patterns : List PatternConfig) (c cl : List Char) (cid : Nat) (seen : List (List Char)),
      processClauseGoE patterns c cl cid seen = .ok (processClauseGo patterns c cl cid seen) := by
  intro patterns
  induction patterns with
  | nil => intro c cl cid seen; rfl
  | cons cfg rest ih =>
      intro c cl cid seen
      unfold processClauseGoE processClauseGo
      rw [_check_patternE_ok]
      cases hc : _check_pattern cfg cl c with
      | none => simpa using ih c cl cid seen
      | some se =>
          rcases se with ⟨sev, ex⟩
          by_cases hk : clauseKey c cfg.risk_type ∈ seen
          · simp [hk, ih c cl cid seen]
          · simp [hk]

/-- Helper: the strict clause step agrees with the plain one. -/
theorem stepClauseE_ok : ∀ (st : RunState) (c : List Char),
    stepClauseE st c = .ok (stepClause st c) := by
  intro st c
  unfold stepClauseE stepClause
  rw [processClauseGoE_ok]
  rcases hp : processClauseGo RISK_PATTERNS c (strLower c) st.cid st.seen with ⟨o, s'⟩
  cases o <;> simp

/-- Helper: a strict fold whose step never fails agrees with the plain fold. -/
theorem foldlM_stepClauseE_ok :
    ∀ (l : List (List Char)) (st : RunState),
      l.foldlM stepClauseE st = .ok (l.foldl stepClause st) := by
  intro l
  induction l with
  | nil => intro st; rfl
  | cons c rest ih =>
      intro st
      rw [List.foldlM_cons, stepClauseE_ok]
      simpa using ih (stepClause st c)

/-- C8: `analyze_document` is total on every string input: its embedding is
a total function, and the strict variant — in which the one internal error
branch (a `float` parse failure inside `extract_numbers`) aborts the run —
returns `ok` of the plain result on every input, so every internal error
branch is unreachable. -/
theorem c8_total_no_error :
    ∀ text : List Char, analyze_documentE text = .ok (analyze_document text) := by
  intro text
  unfold analyze_documentE analyze_document
  split
  · rfl
  · rw [foldlM_stepClauseE_ok]

end ClaimC8

section ClaimC6

/-- Helper: `wordsAux` on a leading space emits the accumulator. -/
theorem wordsAux_space_cons {w : Char} (hw : isPySpace w = true) (y acc : List Char) :
    wordsAux (w :: y) acc = (if acc = [] then [] else [acc]) ++ wordsAux y [] := by
  rw [show wordsAux (w :: y) acc =
      if isPySpace w then (if acc = [] then wordsAux y [] else acc :: wordsAux y [])
      else wordsAux y (acc ++ [w]) from rfl]
  rw [if_pos hw]
  by_cases ha : acc = []
  · rw [if_pos ha, if_pos ha, List.nil_append]
  · rw [if_neg ha, if_neg ha, List.singleton_append]

/-- Helper: `wordsAux` accumulates a non-space character. -/
theorem wordsAux_nonspace_cons {c : Char} (hc : isPySpace c = false) (y acc : List Char) :
    wordsAux (c :: y) acc = wordsAux y (acc ++ [c]) := by
  rw [show wordsAux (c :: y) acc =
      if isPySpace c then (if acc = [] then wordsAux y [] else acc :: wordsAux y [])
      else wordsAux y (acc ++ [c]) from rfl]
  rw [if_neg (by simp [hc])]

/-- Helper: `wordsAux` consumes a whole whitespace-free block into the
accumulator. -/
theorem wordsAux_consume : ∀ (w : List Char), (∀ c ∈ w, isPySpace c = false) →
    ∀ (r acc : List Char), wordsAux (w ++ r) acc = wordsAux r (acc ++ w) := by
  intro w
  induction w with
  | nil => intro _ r acc; rw [List.nil_append, List.append_nil]
  | cons c cs ih =>
      intro h r acc
      rw [List.cons_append, wordsAux_nonspace_cons (h c (List.mem_cons_self _ _)),
        ih (fun x hx => h x (List.mem_cons_of_mem _ hx)), List.append_assoc]
      rfl

/-- Helper: an all-whitespace input only flushes the accumulator. -/
theorem wordsAux_all_space : ∀ (y : List Char), (∀ c ∈ y, isPySpace c = true) →
    ∀ acc, wordsAux y acc = if acc = [] then [] else [acc] := by
  intro y
  induction y with
  | nil => intro _ acc; rfl
  | cons c cs ih =>
      intro h acc
      rw [wordsAux_space_cons (h c (List.mem_cons_self _ _)),
        ih (fun x hx => h x (List.mem_cons_of_mem _ hx)) [], if_pos rfl, List.append_nil]

/-- Helper: trailing all-whitespace text does not change the words. -/
theorem wordsAux_append_space_right : ∀ (x : List Char) {y : List Char},
    (∀ c ∈ y, isPySpace c = true) → ∀ acc, wordsAux (x ++ y) acc = wordsAux x acc := by
  intro x
  induction x with
  | nil =>
      intro y hy acc
      rw [List.nil_append, wordsAux_all_space y hy acc]
      rfl
  | cons c cs ih =>
      intro y hy acc
      by_cases hc : isPySpace c = true
      · rw [List.cons_append, wordsAux_space_cons hc, wordsAux_space_cons hc, ih hy]
      · rw [List.cons_append, wordsAux_nonspace_cons (by simpa using hc),
          wordsAux_nonspace_cons (by simpa using hc), ih hy]

/-- Helper: leading all-whitespace text does not change the words. -/
theorem wordsAux_append_space_left : ∀ (x : List Char), (∀ c ∈ x, isPySpace c = true) →
    ∀ (y : List Char), wordsAux (x ++ y) [] = wordsAux y [] := by
  intro x
  induction x with
  | nil => intro _ y; rfl
  | cons c cs ih =>
      intro h y
      rw [List.cons_append, wordsAux_space_cons (h c (List.mem_cons_self _ _)), if_pos rfl,
        List.nil_append, ih (fun z hz => h z (List.mem_cons_of_mem _ hz))]

/-- Helper: the words of text ending in whitespace split at that point. -/
theorem wordsAux_append_split : ∀ (x : List Char) {w : Char}, isPySpace w = true →
    ∀ (y acc : List Char),
      wordsAux ((x ++ [w]) ++ y) acc = wordsAux (x ++ [w]) acc ++ wordsAux y [] := by
  intro x
  induction x with
  | nil =>
      intro w hw y acc
      rw [List.nil_append, List.singleton_append, wordsAux_space_cons hw y acc,
        wordsAux_space_cons hw [] acc,
        show wordsAux ([] : List Char) [] = [] from rfl, List.append_nil]
  | cons c cs ih =>
      intro w hw y acc
      by_cases hc : isPySpace c = true
      · rw [List.cons_append, List.cons_append, wordsAux_space_cons hc, wordsAux_space_cons hc,
          ih hw, List.append_assoc]
      · rw [List.cons_append, List.cons_append, wordsAux_nonspace_cons (by simpa using hc),
          wordsAux_nonspace_cons (by simpa using hc), ih hw]

/-- Helper: a non-empty accumulator always produces a word. -/
theorem wordsAux_ne_nil : ∀ (l acc : List Char), acc ≠ [] → wordsAux l acc ≠ [] := by
  intro l
  induction l with
  | nil =>
      intro acc h
      rw [show wordsAux [] acc = if acc = [] then [] else [acc] from rfl, if_neg h]
      simp
  | cons c cs ih =>
      intro acc h
      by_cases hc : isPySpace c = true
      · rw [wordsAux_space_cons hc, if_neg h]
        simp
      · rw [wordsAux_nonspace_cons (by simpa using hc)]
        exact ih _ (by simp)

/-- Helper: every word produced is non-empty and whitespace-free. -/
theorem wordsAux_wordOK : ∀ (l acc : List Char), (∀ c ∈ acc, isPySpace c = false) →
    ∀ w ∈ wordsAux l acc, wordOK w := by
  intro l
  induction l with
  | nil =>
      intro acc hacc w hw
      rw [show wordsAux [] acc = if acc = [] then [] else [acc] from rfl] at hw
      by_cases ha : acc = []
      · rw [if_pos ha] at hw; exact absurd hw (List.not_mem_nil _)
      · rw [if_neg ha] at hw
        rw [List.mem_singleton.mp hw]
        exact ⟨ha, hacc⟩
  | cons c cs ih =>
      intro acc hacc w hw
      by_cases hc : isPySpace c = true
      · rw [wordsAux_space_cons hc] at hw
        rcases List.mem_append.mp hw with hm | hm
        · by_cases ha : acc = []
          · rw [if_pos ha] at hm; exact absurd hm (List.not_mem_nil _)
          · rw [if_neg ha] at hm
            rw [List.mem_singleton.mp hm]
            exact ⟨ha, hacc⟩
        · exact ih [] (by simp) w hm
      · rw [wordsAux_nonspace_cons (by simpa using hc)] at hw
        refine ih (acc ++ [c]) ?_ w hw
        intro x hx
        rcases List.mem_append.mp hx with hx | hx
        · exact hacc x hx
        · rw [List.mem_singleton.mp hx]; simpa using hc

/-- Helper: an input with no words is all whitespace. -/
theorem pyWords_nil_space : ∀ {ch : List Char}, pyWords ch = [] → ∀ c ∈ ch, isPySpace c = true := by
  intro ch
  induction ch with
  | nil => intro _ c hc; exact absurd hc (List.not_mem_nil _)
  | cons a as ih =>
      intro h c hc
      by_cases ha : isPySpace a = true
      · rcases List.mem_cons.mp hc with rfl | hm
        · exact ha
        · refine ih ?_ c hm
          unfold pyWords at h ⊢
          rw [wordsAux_space_cons ha, if_pos rfl, List.nil_append] at h
          exact h
      · exfalso
        unfold pyWords at h
        rw [wordsAux_nonspace_cons (by simpa using ha), List.nil_append] at h
        exact wordsAux_ne_nil as [a] (by simp) h

/-- Helper: `joinSp` of a list headed by at least two words. -/
theorem joinSp_cons_ne (w : List Char) :
    ∀ ws : List (List Char), ws ≠ [] → joinSp (w :: ws) = w ++ ' ' :: joinSp ws := by
  intro ws h
  cases ws with
  | nil => exact absurd rfl h
  | cons v vs => rfl

/-- Helper: `joinSp` of non-empty words is empty only for no words. -/
theorem joinSp_eq_nil_iff : ∀ {ws : List (List Char)}, (∀ w ∈ ws, w ≠ []) →
    (joinSp ws = [] ↔ ws = []) := by
  intro ws hws
  cases ws with
  | nil => simp [joinSp]
  | cons w ws' =>
      cases ws' with
      | nil =>
          rw [show joinSp [w] = w from rfl]
          simp [hws w (List.mem_cons_self _ _)]
      | cons v vs =>
          rw [joinSp_cons_ne w (v :: vs) (by simp)]
          simp

/-- Helper: `joinSp` distributes over an append of non-empty lists. -/
theorem joinSp_append : ∀ (A B : List (List Char)), A ≠ [] → B ≠ [] →
    joinSp (A ++ B) = joinSp A ++ ' ' :: joinSp B := by
  intro A
  induction A with
  | nil => intro B h _; exact absurd rfl h
  | cons a A' ih =>
      intro B _ hB
      cases A' with
      | nil =>
          rw [List.singleton_append, joinSp_cons_ne a B hB]
          rfl
      | cons a2 A'' =>
          rw [List.cons_append, joinSp_cons_ne a ((a2 :: A'') ++ B) (by simp),
            joinSp_cons_ne a (a2 :: A'') (by simp), ih B (by simp) hB, List.append_assoc]
          rfl

/-- Helper: `pyWords` recovers the word list from its joined form. -/
theorem pyWords_joinSp : ∀ (ws : List (List Char)), (∀ w ∈ ws, wordOK w) →
    pyWords (joinSp ws) = ws := by
  intro ws
  induction ws with
  | nil => intro _; rfl
  | cons w ws' ih =>
      intro h
      obtain ⟨hne, hns⟩ := h w (List.mem_cons_self _ _)
      cases ws' with
      | nil =>
          show wordsAux (joinSp [w]) [] = [w]
          rw [show joinSp [w] = w from rfl]
          have hc := wordsAux_consume w hns [] []
          rw [List.append_nil, List.nil_append] at hc
          rw [hc, show wordsAux [] w = if w = [] then [] else [w] from rfl, if_neg hne]
      | cons v vs =>
          show wordsAux (joinSp (w :: v :: vs)) [] = w :: v :: vs
          rw [joinSp_cons_ne w (v :: vs) (by simp)]
          rw [wordsAux_consume w hns _ [], List.nil_append,
            wordsAux_space_cons (by decide) _ w, if_neg hne]
          rw [show wordsAux (joinSp (v :: vs)) [] = pyWords (joinSp (v :: vs)) from rfl,
            ih (fun x hx => h x (List.mem_cons_of_mem _ hx))]
          rfl

/-- Helper: `clean_text` is idempotent. -/
theorem clean_text_idem (t : List Char) : clean_text (clean_text t) = clean_text t := by
  unfold clean_text
  rw [show pyWords (joinSp (pyWords t)) = pyWords t from
    pyWords_joinSp (pyWords t) (wordsAux_wordOK t [] (by simp))]

/-- Helper: `clean_text` is empty iff the input has no words. -/
theorem clean_text_eq_nil_iff {x : List Char} : clean_text x = [] ↔ pyWords x = [] := by
  unfold clean_text
  exact joinSp_eq_nil_iff (fun w hw => (wordsAux_wordOK x [] (by simp) w hw).1)

/-- Helper: cleaning an append whose left part ends in whitespace and both
parts have words splits into cleaning the parts. -/
theorem clean_text_append_split {T ch : List Char} (hT : endsWS T)
    (hTw : pyWords T ≠ []) (hchw : pyWords ch ≠ []) :
    clean_text (T ++ ch) = clean_text T ++ ' ' :: clean_text ch := by
  obtain ⟨T', w, rfl, hw⟩ := hT
  unfold clean_text
  rw [show pyWords ((T' ++ [w]) ++ ch) = pyWords (T' ++ [w]) ++ pyWords ch from
    wordsAux_append_split T' hw ch []]
  exact joinSp_append _ _ hTw hchw

/-- Helper: cleaning ignores an appended wordless (all-whitespace) part. -/
theorem clean_text_append_wordless_right {T ch : List Char} (hch : pyWords ch = []) :
    clean_text (T ++ ch) = clean_text T := by
  unfold clean_text
  rw [show pyWords (T ++ ch) = pyWords T from
    wordsAux_append_space_right T (pyWords_nil_space hch) []]

/-- Helper: cleaning ignores a prepended wordless (all-whitespace) part. -/
theorem clean_text_append_wordless_left {T ch : List Char} (hT : pyWords T = []) :
    clean_text (T ++ ch) = clean_text ch := by
  unfold clean_text
  rw [show pyWords (T ++ ch) = pyWords ch from
    wordsAux_append_space_left T (pyWords_nil_space hT) ch]

/-- Helper: appending preserves ending in whitespace. -/
theorem endsWS_append {x y : List Char} (h : endsWS y) : endsWS (x ++ y) := by
  obtain ⟨y', w, rfl, hw⟩ := h
  exact ⟨x ++ y', w, by rw [List.append_assoc], hw⟩

/-- Helper: a non-empty all-whitespace string ends in whitespace. -/
theorem endsWS_of_all_space {l : List Char} (h : l ≠ [])
    (hall : ∀ c ∈ l, isPySpace c = true) : endsWS l :=
  ⟨l.dropLast, l.getLast h, (List.dropLast_append_getLast h).symm,
    hall _ (List.getLast_mem h)⟩

/-- Helper: the chunking step preserves the shape invariant. -/
theorem chunkInv_step {st : ChunkSt} (h : chunkInv st) (c : Char) :
    chunkInv (chunkStep st c) := by
  obtain ⟨hout, hpn, hsp, htxt⟩ := h
  rcases st with ⟨out, acc, pr, sr, mode⟩
  cases mode
  · -- txt
    simp only [chunkStep]
    split_ifs with hc
    · exact ⟨hout, fun _ => ⟨by simp, rfl⟩, by simp, by simp⟩
    · exact ⟨hout, by simp, by simp, fun _ => ⟨rfl, rfl⟩⟩
  · -- pn
    obtain ⟨hpr, hsr⟩ := hpn rfl
    simp only at hpr hsr
    simp only [chunkStep]
    split_ifs with hc hs
    · exact ⟨hout, fun _ => ⟨by simp, rfl⟩, by simp, by simp⟩
    · exact ⟨hout, by simp,
        fun _ => ⟨hpr, by simp, by intro x hx; rw [List.mem_singleton.mp hx]; exact hs⟩,
        by simp⟩
    · exact ⟨hout, by simp, by simp, fun _ => ⟨rfl, rfl⟩⟩
  · -- sp
    obtain ⟨hpr, hsr, hall⟩ := hsp rfl
    simp only at hpr hsr hall
    simp only [chunkStep]
    have hchunk : (acc ++ pr ++ sr) ≠ [] := by
      simp only [ne_eq, List.append_eq_nil]
      intro ⟨⟨_, h2⟩, _⟩
      exact hpr h2
    have hchends : endsWS (acc ++ pr ++ sr) := endsWS_append (endsWS_of_all_space hsr hall)
    have hout' : ∀ d ∈ out ++ [acc ++ pr ++ sr], d ≠ [] ∧ endsWS d := by
      intro d hd
      rcases List.mem_append.mp hd with hd | hd
      · exact hout d hd
      · rw [List.mem_singleton.mp hd]
        exact ⟨hchunk, hchends⟩
    split_ifs with hc hp
    · exact ⟨hout, by simp,
        fun _ => ⟨hpr, by simp, by
          intro x hx
          rcases List.mem_append.mp hx with hx | hx
          · exact hall x hx
          · rw [List.mem_singleton.mp hx]; exact hc⟩,
        by simp⟩
    · exact ⟨hout', fun _ => ⟨by simp, rfl⟩, by simp, by simp⟩
    · exact ⟨hout', by simp, by simp, fun _ => ⟨rfl, rfl⟩⟩

/-- Helper: each chunking step consumes exactly its input character. -/
theorem chjoin_step {st : ChunkSt} (h : chunkInv st) (c : Char) :
    chjoin (chunkStep st c) = chjoin st ++ [c] := by
  obtain ⟨hout, hpn, hsp, htxt⟩ := h
  rcases st with ⟨out, acc, pr, sr, mode⟩
  cases mode
  · obtain ⟨hpr, hsr⟩ := htxt rfl
    simp only at hpr hsr
    subst hpr hsr
    simp only [chunkStep]
    split_ifs <;> simp [chjoin, List.append_assoc]
  · obtain ⟨_, hsr⟩ := hpn rfl
    simp only at hsr
    subst hsr
    simp only [chunkStep]
    split_ifs <;> simp [chjoin, List.append_assoc]
  · simp only [chunkStep]
    split_ifs <;> simp [chjoin, List.append_assoc]

/-- Helper: the chunking fold consumes exactly the input. -/
theorem chjoin_foldl : ∀ (l : List Char) (st : ChunkSt), chunkInv st →
    chjoin (l.foldl chunkStep st) = chjoin st ++ l := by
  intro l
  induction l with
  | nil => intro st _; simp
  | cons c cs ih =>
      intro st h
      rw [List.foldl_cons, ih _ (chunkInv_step h c), chjoin_step h, List.append_assoc]
      rfl

/-- Helper: flushing the scan state yields exactly the consumed input. -/
theorem chunkFlush_flatten {st : ChunkSt} (h : chunkInv st) :
    (chunkFlush st).flatten = chjoin st := by
  obtain ⟨hout, hpn, hsp, htxt⟩ := h
  rcases st with ⟨out, acc, pr, sr, mode⟩
  cases mode
  · obtain ⟨hpr, hsr⟩ := htxt rfl
    simp only at hpr hsr
    subst hpr hsr
    simp only [chunkFlush, chjoin]
    split_ifs with ha
    · subst ha; simp
    · simp
  · obtain ⟨_, hsr⟩ := hpn rfl
    simp only at hsr
    subst hsr
    simp [chunkFlush, chjoin, List.append_assoc]
  · simp [chunkFlush, chjoin, List.append_assoc]

/-- Helper: the chunking fold preserves the shape invariant. -/
theorem chunkInv_foldl : ∀ (l : List Char) (st : ChunkSt), chunkInv st →
    chunkInv (l.foldl chunkStep st) := by
  intro l
  induction l with
  | nil => intro st h; exact h
  | cons c cs ih => intro st h; exact ih _ (chunkInv_step h c)

/-- Helper: the sentence chunks of a paragraph partition it, are all
non-empty, and every chunk except possibly the last ends in whitespace. -/
theorem sentenceChunks_spec (p : List Char) :
    (sentenceChunks p).flatten = p ∧
    (∀ c ∈ sentenceChunks p, c ≠ []) ∧
    (∀ c ∈ (sentenceChunks p).dropLast, endsWS c) := by
  have hinit : chunkInv ⟨[], [], [], [], ChunkMode.txt⟩ :=
    ⟨fun c hc => absurd hc (List.not_mem_nil _), by simp, by simp, fun _ => ⟨rfl, rfl⟩⟩
  have hinv : chunkInv (p.foldl chunkStep ⟨[], [], [], [], ChunkMode.txt⟩) :=
    chunkInv_foldl p _ hinit
  refine ⟨?_, ?_, ?_⟩
  · unfold sentenceChunks
    rw [chunkFlush_flatten hinv, chjoin_foldl p _ hinit]
    rfl
  · obtain ⟨hout, hpn, hsp, htxt⟩ := hinv
    intro c hc
    unfold sentenceChunks chunkFlush at hc
    rcases hmode : (p.foldl chunkStep ⟨[], [], [], [], ChunkMode.txt⟩).mode
    all_goals rw [hmode] at hc; simp only at hc
    · split_ifs at hc with ha
      · exact (hout c hc).1
      · rcases List.mem_append.mp hc with hm | hm
        · exact (hout c hm).1
        · rw [List.mem_singleton.mp hm]; exact ha
    · rcases List.mem_append.mp hc with hm | hm
      · exact (hout c hm).1
      · rw [List.mem_singleton.mp hm]
        simp only [ne_eq, List.append_eq_nil]
        intro ⟨_, h2⟩
        exact (hpn hmode).1 h2
    · rcases List.mem_append.mp hc with hm | hm
      · exact (hout c hm).1
      · rw [List.mem_singleton.mp hm]
        simp only [ne_eq, List.append_eq_nil]
        intro ⟨⟨_, h2⟩, _⟩
        exact (hsp hmode).1 h2
  · obtain ⟨hout, hpn, hsp, htxt⟩ := hinv
    intro c hc
    unfold sentenceChunks chunkFlush at hc
    rcases hmode : (p.foldl chunkStep ⟨[], [], [], [], ChunkMode.txt⟩).mode
    all_goals rw [hmode] at hc; simp only at hc
    · split_ifs at hc with ha
      · exact (hout c (List.dropLast_subset _ hc)).2
      · rw [List.dropLast_concat] at hc
        exact (hout c hc).2
    · rw [List.dropLast_concat] at hc
      exact (hout c hc).2
    · rw [List.dropLast_concat] at hc
      exact (hout c hc).2

/-- Helper: one sentence step preserves the loop invariant: while nothing
has been emitted, the buffer is exactly the cleaned text consumed so far;
once something has been emitted, some emitted clause meets `min_length`. -/
theorem stepSentence_spec (min_length : Nat) (st : SegState) (T ch : List Char)
    (hTws : T = [] ∨ endsWS T)
    (hinv1 : st.clauses = [] → st.current = clean_text T)
    (hinv2 : st.clauses ≠ [] → ∃ c ∈ st.clauses, min_length ≤ c.length) :
    ((stepSentence min_length st ch).clauses = [] →
      (stepSentence min_length st ch).current = clean_text (T ++ ch)) ∧
    ((stepSentence min_length st ch).clauses ≠ [] →
      ∃ c ∈ (stepSentence min_length st ch).clauses, min_length ≤ c.length) := by
  unfold stepSentence
  by_cases hs : clean_text ch = []
  · rw [if_pos hs]
    refine ⟨?_, hinv2⟩
    intro h
    rw [hinv1 h, clean_text_append_wordless_right (clean_text_eq_nil_iff.mp hs)]
  · rw [if_neg hs]
    by_cases hlong : min_length ≤ (clean_text ch).length
    · rw [if_pos hlong]
      refine ⟨by simp, ?_⟩
      intro _
      exact ⟨clean_text ch, by simp, hlong⟩
    · rw [if_neg hlong]
      by_cases hcur : min_length ≤ (segAppend st.current (clean_text ch)).length
      · rw [if_pos hcur]
        refine ⟨by simp, ?_⟩
        intro _
        exact ⟨segAppend st.current (clean_text ch), by simp, hcur⟩
      · rw [if_neg hcur]
        refine ⟨?_, hinv2⟩
        intro h
        simp only at h ⊢
        have hc := hinv1 h
        unfold segAppend
        by_cases hcn : st.current = []
        · rw [if_pos hcn]
          have hTw : pyWords T = [] := by
            rw [← clean_text_eq_nil_iff, ← hc, hcn]
          rw [clean_text_append_wordless_left hTw]
        · rw [if_neg hcn]
          have hTne : T ≠ [] := by
            intro hT0
            rw [hT0] at hc
            exact hcn (hc.trans rfl)
          have hTws' : endsWS T := by
            rcases hTws with h0 | h0
            · exact absurd h0 hTne
            · exact h0
          have hTw : pyWords T ≠ [] := by
            intro h0
            apply hcn
            rw [hc]
            unfold clean_text
            rw [h0]
            rfl
          rw [clean_text_append_split hTws' hTw (fun h0 => hs (clean_text_eq_nil_iff.mpr h0)),
            hc]

/-- Helper: the sentence loop over the chunks keeps the invariant: if no
clause was emitted the buffer is the cleaned concatenation of all chunks,
and otherwise some emitted clause meets `min_length`. -/
theorem seg_foldl_spec (min_length : Nat) :
    ∀ (l : List (List Char)) (st : SegState) (T : List Char),
      (∀ c ∈ l.dropLast, endsWS c) →
      (l = [] ∨ T = [] ∨ endsWS T) →
      (st.clauses = [] → st.current = clean_text T) →
      (st.clauses ≠ [] → ∃ c ∈ st.clauses, min_length ≤ c.length) →
      ((l.foldl (stepSentence min_length) st).clauses = [] →
        (l.foldl (stepSentence min_length) st).current = clean_text (T ++ l.flatten)) ∧
      ((l.foldl (stepSentence min_length) st).clauses ≠ [] →
        ∃ c ∈ (l.foldl (stepSentence min_length) st).clauses, min_length ≤ c.length) := by
  intro l
  induction l with
  | nil =>
      intro st T _ _ h1 h2
      rw [List.foldl_nil]
      refine ⟨?_, h2⟩
      intro h
      rw [h1 h, List.flatten_nil, List.append_nil]
  | cons ch rest ih =>
      intro st T hws hT h1 h2
      rw [List.foldl_cons]
      have hTws : T = [] ∨ endsWS T := by
        rcases hT with h | h
        · exact absurd h (by simp)
        · exact h
      obtain ⟨s1, s2⟩ := stepSentence_spec min_length st T ch hTws h1 h2
      have hrest : ∀ c ∈ rest.dropLast, endsWS c := by
        intro c hc
        cases rest with
        | nil => exact absurd hc (List.not_mem_nil _)
        | cons r rs =>
            refine hws c ?_
            have hdl : (ch :: r :: rs).dropLast = ch :: (r :: rs).dropLast := rfl
            rw [hdl]
            exact List.mem_cons_of_mem _ hc
      have hT' : rest = [] ∨ (T ++ ch) = [] ∨ endsWS (T ++ ch) := by
        cases rest with
        | nil => exact Or.inl rfl
        | cons r rs =>
            refine Or.inr (Or.inr (endsWS_append ?_))
            refine hws ch ?_
            have hdl : (ch :: r :: rs).dropLast = ch :: (r :: rs).dropLast := rfl
            rw [hdl]
            exact List.mem_cons_self _ _
      have hmain := ih (stepSentence min_length st ch) (T ++ ch) hrest hT' s1 s2
      rw [List.flatten_cons, ← List.append_assoc]
      exact hmain

/-- Helper: a paragraph whose cleaned form has exactly `min_length ≥ 1`
characters yields at least one clause of length at least `min_length`. -/
theorem processParagraph_hit (min_length : Nat) (hmin : 1 ≤ min_length) (p : List Char)
    (hlen : (clean_text p).length = min_length) :
    ∃ c ∈ processParagraph min_length p, min_length ≤ c.length := by
  unfold processParagraph
  rw [if_neg (by omega)]
  obtain ⟨hflat, hne, hws⟩ := sentenceChunks_spec (clean_text p)
  obtain ⟨s1, s2⟩ := seg_foldl_spec min_length (sentenceChunks (clean_text p)) ⟨[], []⟩ []
    hws (Or.inr (Or.inl rfl)) (fun _ => rfl) (fun h => absurd rfl h)
  by_cases hcl :
      ((sentenceChunks (clean_text p)).foldl (stepSentence min_length) ⟨[], []⟩).clauses = []
  · have hcur := s1 hcl
    rw [List.nil_append, hflat, clean_text_idem] at hcur
    refine ⟨clean_text p, ?_, by omega⟩
    unfold segFinal
    rw [hcl, hcur, List.nil_append,
      if_pos ⟨by rw [← List.length_pos_iff_ne_nil]; omega, by omega⟩]
    exact List.mem_singleton.mpr rfl
  · obtain ⟨c, hc, hclen⟩ := s2 hcl
    exact ⟨c, List.mem_append_left _ hc, hclen⟩

/-- C6: the claim as stated is false at `min_length = 0`: the all-space
input `"   "` is a single paragraph (no blank-line break) whose normalized
length is exactly `0 = min_length`, yet the segmenter produces zero
clauses, because an empty cleaned sentence is always skipped and an empty
final buffer is never flushed. -/
theorem c6_counterexample :
    splitParagraphs "   ".data = ["   ".data] ∧
    (clean_text "   ".data).length = 0 ∧
    split_into_clauses "   ".data 0 = [] := by
  refine ⟨by decide, by decide, by decide⟩

/-- C6 (amended): for a single-paragraph input (the paragraph splitter
returns it unchanged): a paragraph whose normalized length is below
`min_length` produces zero clauses, and — for `min_length ≥ 1` — a
paragraph of exactly `min_length` characters after normalization produces
at least one clause.  (The original claim also asserted the second part
for `min_length = 0`, where it fails; see the counterexample.) -/
theorem c6_segmentation :
    ∀ (t : List Char) (min_length : Nat), splitParagraphs t = [t] →
      ((clean_text t).length < min_length → split_into_clauses t min_length = []) ∧
      (1 ≤ min_length → (clean_text t).length = min_length →
        1 ≤ (split_into_clauses t min_length).length) := by
  intro t minL hpar
  constructor
  · intro hshort
    unfold split_into_clauses
    by_cases ht : t = []
    · rw [if_pos ht]
    · rw [if_neg ht, hpar, List.foldl_cons, List.foldl_nil, List.nil_append]
      unfold processParagraph
      rw [if_pos hshort]
      rfl
  · intro hmin hlen
    have ht : t ≠ [] := by
      intro h
      rw [h, show clean_text [] = [] from rfl] at hlen
      simp at hlen
      omega
    unfold split_into_clauses
    rw [if_neg ht, hpar, List.foldl_cons, List.foldl_nil, List.nil_append]
    obtain ⟨c, hc, hclen⟩ := processParagraph_hit minL hmin t hlen
    have hmem : c ∈ (processParagraph minL t).filter (fun c => minL ≤ c.length) :=
      List.mem_filter.mpr ⟨hc, by simpa using hclen⟩
    have hnn := List.ne_nil_of_mem hmem
    rw [← List.length_pos_iff_ne_nil] at hnn
    omega

/-- C6 (witness): the amended theorem applied to a concrete 30-character
paragraph with `min_length = 30`. -/
theorem c6_witness : 1 ≤ (split_into_clauses c6Para 30).length :=
  (c6_segmentation c6Para 30 (by decide)).2 (by decide) (by decide)

end ClaimC6

end NitiCheck
